import Mathlib

/-!
Verification of the PII redactor service (src/main.py) against its
natural-language specification.

Modelling conventions (shallow embedding of the Python source):
* Python strings are modelled as `List Char`; Python `len`, slicing
  `s[:n]`, `s[n:]` become `List.length`, `List.take`, `List.drop`.
* Python float scores are modelled as rationals.
* The external word-frequency oracle `wordfreq.zipf_frequency` is an
  external collaborator and is passed in as a function argument.
* The external NER model (`model.predict_entities`) is an external
  collaborator; the list of raw entities it returns (or the exception it
  raises) is passed in as an `Except` argument.
* Python dict entities `{"start","end","text","label","score"}` become
  the structure `Entity` (the field `end` is spelled `end_` because `end`
  is a Lean keyword).
* Python `sorted` is a stable sort; it is modelled by
  `List.insertionSort`, which is stable (it inserts each element of the
  original list in front of the already-sorted tail exactly when the
  comparison holds, so elements with equal keys keep their input order).
* Character predicates (`\w`, `str.lower`, `str.isdigit`, `str.strip`)
  are modelled at ASCII granularity; Python is Unicode-aware on exotic
  characters, which none of the claims exercise.
-/

/-- Entity record, mirroring the Python dicts
`{"start": ..., "end": ..., "text": ..., "label": ..., "score": ...}`
used throughout src/main.py. -/
structure Entity where
  start : Nat
  end_ : Nat
  text : List Char
  label : List Char
  score : ℚ
deriving DecidableEq, Repr

/-- Sort key of `merge_entities` (src/main.py:145):
`sorted(entities, key=lambda x: (x["start"], -x["end"]))`, i.e. the
lexicographic order on `(start, -end)`: ascending start, then descending
end. -/
def entLe (a b : Entity) : Prop :=
  a.start < b.start ∨ (a.start = b.start ∧ b.end_ ≤ a.end_)

instance : DecidableRel entLe := fun a b => by
  unfold entLe; exact inferInstance

instance : IsTotal Entity entLe := by
  constructor
  intro a b
  unfold entLe
  omega

instance : IsTrans Entity entLe := by
  constructor
  intro a b c hab hbc
  unfold entLe at *
  omega

/-- The left-to-right sweep of `merge_entities` (src/main.py:146-152).
The accumulator holds the Python list `merged` in reverse order, so its
head is Python's `merged[-1]`. -/
def merge_sweep : List Entity → List Entity → List Entity
  | acc, [] => acc.reverse
  | [], e :: rest => merge_sweep [e] rest
  | m :: ms, e :: rest =>
    if e.start < m.end_ then
      if m.end_ < e.end_ then merge_sweep (e :: ms) rest
      else merge_sweep (m :: ms) rest
    else merge_sweep (e :: m :: ms) rest

/-- `merge_entities` (src/main.py:144-153): stable-sort by
`(start, -end)`, then sweep, replacing the last accepted entity by any
overlapping candidate that extends strictly further. -/
def merge_entities (entities : List Entity) : List Entity :=
  merge_sweep [] (entities.insertionSort entLe)

/-! Invariant lemmas for the sweep. -/

/-- Projection of an entity to its bare character span. -/
def span (e : Entity) : Nat × Nat := (e.start, e.end_)

/-- The sort key order of `merge_entities`, on bare spans. -/
def spanLe (p q : Nat × Nat) : Prop :=
  p.1 < q.1 ∨ (p.1 = q.1 ∧ q.2 ≤ p.2)

instance : DecidableRel spanLe := fun a b => by
  unfold spanLe; exact inferInstance

instance : IsAntisymm (Nat × Nat) spanLe := by
  constructor
  intro a b h1 h2
  obtain ⟨a1, a2⟩ := a
  obtain ⟨b1, b2⟩ := b
  unfold spanLe at *
  simp only [Prod.mk.injEq]
  omega

/-- The sweep of `merge_entities`, acting on bare spans. -/
def merge_sweepS : List (Nat × Nat) → List (Nat × Nat) → List (Nat × Nat)
  | acc, [] => acc.reverse
  | [], e :: rest => merge_sweepS [e] rest
  | m :: ms, e :: rest =>
    if e.1 < m.2 then
      if m.2 < e.2 then merge_sweepS (e :: ms) rest
      else merge_sweepS (m :: ms) rest
    else merge_sweepS (e :: m :: ms) rest

/-- Python `str.strip()` whitespace (ASCII part). -/
def pyIsSpace (c : Char) : Bool :=
  c = ' ' || c = '\t' || c = '\n' || c = '\r' || c = '\x0b' || c = '\x0c'

/-- Python `str.strip()`. -/
def pyStrip (s : List Char) : List Char :=
  ((s.dropWhile pyIsSpace).reverse.dropWhile pyIsSpace).reverse

/-- Python `str.lower()` (ASCII part). -/
def pyLower (s : List Char) : List Char := s.map Char.toLower

/-- Python `str.isdigit()`: nonempty and all digits (ASCII part). -/
def pyIsDigit (s : List Char) : Bool := !s.isEmpty && s.all Char.isDigit

/-- `CONFIDENCE_THRESHOLD = 0.6` (src/main.py:45), the rational 3/5,
given by an explicit normalized numerator and denominator so that it
evaluates inside the kernel. -/
def CONFIDENCE_THRESHOLD : ℚ := ⟨3, 5, by decide, by decide⟩

/-- `ZIPF_THRESHOLD = 4.5` (src/main.py:46), the rational 9/2. -/
def ZIPF_THRESHOLD : ℚ := ⟨9, 2, by decide, by decide⟩

/-- `DO_NOT_REDACT` (src/main.py:48-52), with the `DO_NOT_REDACT_EXTRA`
environment extension at its default (empty). -/
def DO_NOT_REDACT : List (List Char) :=
  ["name", "person", "street", "road", "address",
   "phone", "number", "email", "user", "customer",
   "manager", "employee", "doctor", "teacher", "patient"].map String.data

/-- `is_valid_entity` (src/main.py:100-117). The word-frequency oracle
`zipf_frequency(text, "en")` is the external collaborator `zipf`;
`ent.get("score", 0.0)` is `ent.score` (every modelled entity carries its
score field). -/
def is_valid_entity (zipf : List Char → ℚ) (ent : Entity) : Bool :=
  let text := pyStrip ent.text
  let label := pyStrip ent.label
  let score := ent.score
  if score < CONFIDENCE_THRESHOLD then false
  else if pyLower text = pyLower label then false
  else if pyLower text ∈ DO_NOT_REDACT then false
  else if text.length ≤ 2 then false
  else if pyIsDigit text = true ∧ text.length < 6 then false
  else if ZIPF_THRESHOLD ≤ zipf text then false
  else true

/-- Python `str.upper()` (ASCII part). -/
def pyUpper (s : List Char) : List Char := s.map Char.toUpper

/-- The replacement token `f"[{ent['label'].upper()}]"` (src/main.py:159). -/
def tagOf (label : List Char) : List Char := '[' :: (pyUpper label ++ [']'])

/-- Descending-start order of `redact_text` (src/main.py:156):
`sorted(entities, key=lambda x: x["start"], reverse=True)`. Python keeps
the input order of entities with equal start. -/
def descStart (a b : Entity) : Prop := b.start ≤ a.start

instance : DecidableRel descStart := fun a b => by
  unfold descStart; exact inferInstance

instance : IsTotal Entity descStart := by
  constructor; intro a b; unfold descStart; omega

instance : IsTrans Entity descStart := by
  constructor; intro a b c h1 h2; unfold descStart at *; omega

/-- Ascending-start order, used to state what the redactor produces. -/
def ascStart (a b : Entity) : Prop := a.start ≤ b.start

instance : DecidableRel ascStart := fun a b => by
  unfold ascStart; exact inferInstance

instance : IsTotal Entity ascStart := by
  constructor; intro a b; unfold ascStart; omega

instance : IsTrans Entity ascStart := by
  constructor; intro a b c h1 h2; unfold ascStart at *; omega

/-- One replacement step of `redact_text` (src/main.py:159):
`redacted[:start] + f"[{label.upper()}]" + redacted[end:]`. -/
def redactStep (red : List Char) (e : Entity) : List Char :=
  red.take e.start ++ tagOf e.label ++ red.drop e.end_

/-- `redact_text` (src/main.py:155-160). -/
def redact_text (text : List Char) (entities : List Entity) : List Char :=
  (entities.insertionSort descStart).foldl redactStep text

/-- Spec-side redactor, following the specification text: walk the
entities in ascending start order; before each entity emit the untouched
slice of the original text since the previous entity end, then the
entity tag; after the last entity emit the remaining tail of the text. -/
def spliceSpec (text : List Char) : Nat → List Entity → List Char
  | i, [] => text.drop i
  | i, e :: es => (text.take e.start).drop i ++ tagOf e.label ++ spliceSpec text e.end_ es

/-- Python `\w` (ASCII part): letters, digits, underscore. -/
def isWordCh (c : Char) : Bool := c.isAlphanum || c = '_'

/-- The class `[A-Za-z0-9._%+-]` (local part). -/
def isLocalCh (c : Char) : Bool :=
  c.isAlphanum || c = '.' || c = '_' || c = '%' || c = '+' || c = '-'

/-- The class `[A-Za-z0-9.-]` (first domain run). -/
def isDomainCh (c : Char) : Bool := c.isAlphanum || c = '.' || c = '-'

/-- The class `[A-Za-z]` (TLD runs). -/
def isTldCh (c : Char) : Bool := c.isAlpha

/-- Every character an EMAIL match can consume: the union of the classes
above together with the literals `@` and `.` (all contained in the local
class plus `@`). -/
def isEmailCh (c : Char) : Bool := isLocalCh c || c = '@'

/-- Wordness of the character at index `k` (out of range counts as
non-word, as for Python `\b` beyond the subject). -/
def wordAt (l : List Char) (k : Nat) : Bool :=
  match l.get? k with
  | some c => isWordCh c
  | none => false

/-- Wordness of the first character of the suffix. -/
def headWord (l : List Char) : Bool := wordAt l 0

/-- Length of the maximal run of characters satisfying `p` at the head
of the list: the greedy first try of a repeated character class. -/
def runLen (p : Char → Bool) (l : List Char) : Nat := (l.takeWhile p).length

/-- Backtracking search for the closing `[A-Za-z]{2,}\b` of the second
TLD: try the length from the given maximum down to 2, accepting when the
word boundary holds after it. Callers pass a maximum no larger than the
maximal letter run of `l4`, so every tried prefix is made of letters. -/
def searchTld2 (l4 : List Char) : Nat → Option Nat
  | 0 => none
  | 1 => none
  | t + 2 =>
    if wordAt l4 (t + 1) != wordAt l4 (t + 2) then some (t + 2)
    else searchTld2 l4 (t + 1)

/-- For a fixed first-TLD length `t`, the engine first tries the
optional group `(?:\.[A-Za-z]{2,})?` (greedy), then falls back to
closing with `\b` directly after the first TLD. -/
def tryTldSuffix (l3 : List Char) (t : Nat) : Option Nat :=
  if l3.get? t = some '.' then
    match searchTld2 (l3.drop (t + 1)) (runLen isTldCh (l3.drop (t + 1))) with
    | some t2 => some (t + 1 + t2)
    | none => if wordAt l3 (t - 1) != wordAt l3 t then some t else none
  else if wordAt l3 (t - 1) != wordAt l3 t then some t else none

/-- Backtracking search for `[A-Za-z]{2,}(?:\.[A-Za-z]{2,})?\b`: try the
first-TLD length from the given maximum down to 2. -/
def searchTld1 (l3 : List Char) : Nat → Option Nat
  | 0 => none
  | 1 => none
  | t + 2 =>
    match tryTldSuffix l3 (t + 2) with
    | some r => some r
    | none => searchTld1 l3 (t + 1)

/-- Backtracking search for `[A-Za-z0-9.-]+\.` followed by the TLD part:
try the first domain run length from the given maximum down to 1; the
character right after the run must be the literal dot. -/
def searchDom (l2 : List Char) : Nat → Option Nat
  | 0 => none
  | m + 1 =>
    if l2.get? (m + 1) = some '.' then
      match searchTld1 (l2.drop (m + 2)) (runLen isTldCh (l2.drop (m + 2))) with
      | some t => some (m + 2 + t)
      | none => searchDom l2 m
    else searchDom l2 m

/-- The `re` match attempt for the EMAIL pattern anchored at the head of
the suffix `l`, where `prev` is the wordness of the character just
before the suffix (`false` at the start of the subject). Returns the
length of the first match in the engine's backtracking order. -/
def emailMatch (prev : Bool) (l : List Char) : Option Nat :=
  if prev != headWord l then
    let n := runLen isLocalCh l
    if n = 0 then none
    else if l.get? n = some '@' then
      match searchDom (l.drop (n + 1)) (runLen isDomainCh (l.drop (n + 1))) with
      | some d => some (n + 1 + d)
      | none => none
    else none
  else none

/-- The replacement text of the final sweep: `"[EMAIL]"`. -/
def emailTag : List Char := ['[', 'E', 'M', 'A', 'I', 'L', ']']

/-- The scan of `re.sub`: at each position try the matcher; on a match
emit the replacement and resume right after the matched text (whose last
character fixes the wordness context), otherwise copy one character. The
fuel only bounds the recursion; every step consumes at least one input
character, so `length` fuel is never exhausted. -/
def emailSub_go : Nat → Bool → List Char → List Char
  | _, _, [] => []
  | 0, _, l => l
  | fuel + 1, prev, c :: rest =>
    match emailMatch prev (c :: rest) with
    | some n =>
      emailTag ++ emailSub_go fuel (wordAt (c :: rest) (n - 1)) ((c :: rest).drop n)
    | none => c :: emailSub_go fuel (isWordCh c) rest

/-- `enforce_final_email_redaction` (src/main.py:162-164):
`REGEX_PATTERNS["EMAIL"].sub("[EMAIL]", text)`. -/
def enforce_final_email_redaction (text : List Char) : List Char :=
  emailSub_go text.length false text

/-- The same scan as `emailSub_go`, collecting the `(start, end)` spans
of the non-overlapping left-to-right matches, as `finditer` yields them;
`i` is the absolute offset of the current suffix. -/
def emailSpans_go : Nat → Nat → Bool → List Char → List (Nat × Nat)
  | _, _, _, [] => []
  | 0, _, _, _ => []
  | fuel + 1, i, prev, c :: rest =>
    match emailMatch prev (c :: rest) with
    | some n =>
      (i, i + n) :: emailSpans_go fuel (i + n) (wordAt (c :: rest) (n - 1)) ((c :: rest).drop n)
    | none => emailSpans_go fuel (i + 1) (isWordCh c) rest

/-- `REGEX_PATTERNS["EMAIL"].finditer(text)` as a span list. -/
def emailSpans (text : List Char) : List (Nat × Nat) :=
  emailSpans_go text.length 0 false text

/-- No position of the list (with the given left wordness context)
matches the EMAIL pattern. -/
def noMatchAll : Bool → List Char → Bool
  | _, [] => true
  | prev, c :: rest => (emailMatch prev (c :: rest)).isNone && noMatchAll (isWordCh c) rest

/-- The scan context `prev` is coherent with a prefix `pre` already
emitted: it is the wordness of the last character of `pre`, or the outer
context `ctx` when `pre` is empty. -/
def joinOk (ctx : Bool) (pre : List Char) (prev : Bool) : Prop :=
  match pre.getLast? with
  | some c => prev = isWordCh c
  | none => prev = ctx

/-- Declarative acceptance of the closing `[A-Za-z]{2,}\b` (second TLD):
`t2` letters at the head of `l4` followed by a word boundary. -/
def AcceptTld2 (l4 : List Char) (t2 : Nat) : Prop :=
  2 ≤ t2 ∧ (∀ k < t2, ∃ c, l4.get? k = some c ∧ isTldCh c = true) ∧
  (wordAt l4 (t2 - 1) != wordAt l4 t2) = true

/-- Declarative acceptance of `[A-Za-z]{2,}(?:\.[A-Za-z]{2,})?\b`
consuming `r` characters at the head of `l3`. -/
def AcceptTld (l3 : List Char) (r : Nat) : Prop :=
  ∃ t, 2 ≤ t ∧ (∀ k < t, ∃ c, l3.get? k = some c ∧ isTldCh c = true) ∧
    ((r = t ∧ (wordAt l3 (t - 1) != wordAt l3 t) = true) ∨
     (l3.get? t = some '.' ∧ ∃ t2, AcceptTld2 (l3.drop (t + 1)) t2 ∧ r = t + 1 + t2))

/-- Declarative acceptance of `[A-Za-z0-9.-]+\.` followed by the TLD
part, consuming `r` characters at the head of `l2`. -/
def AcceptDom (l2 : List Char) (r : Nat) : Prop :=
  ∃ m, 1 ≤ m ∧ (∀ k < m, ∃ c, l2.get? k = some c ∧ isDomainCh c = true) ∧
    l2.get? m = some '.' ∧ ∃ rt, AcceptTld (l2.drop (m + 1)) rt ∧ r = m + 1 + rt

/-- Declarative acceptance of the whole EMAIL pattern anchored at the
head of `l` with left context `prev`, consuming `len` characters: some
decomposition satisfies every structural constraint of the pattern. -/
def Accept (prev : Bool) (l : List Char) (len : Nat) : Prop :=
  ∃ n, 1 ≤ n ∧ (prev != headWord l) = true ∧
    (∀ k < n, ∃ c, l.get? k = some c ∧ isLocalCh c = true) ∧
    l.get? n = some '@' ∧ ∃ r, AcceptDom (l.drop (n + 1)) r ∧ len = n + 1 + r

/-! Basic facts about the character classes, runs and indexing. -/

inductive RE where
  | eps : RE
  | cls (p : Char → Bool) : RE
  | cat (a b : RE) : RE
  | alt (a b : RE) : RE
  | wb : RE
  | starCls (p : Char → Bool) (lazy_ : Bool) : RE

/-- Word boundary of Python `\b` at position `i` of `s`. -/
def boundaryAt (s : List Char) (i : Nat) : Bool :=
  (if i = 0 then false else wordAt s (i - 1)) != wordAt s i

/-- Greedy star over a class: try consuming `n` characters for `n` from
the maximal run length down to zero. -/
def starTryDown (k : Nat → Option Nat) (i : Nat) : Nat → Option Nat
  | 0 => k i
  | n + 1 =>
    match k (i + (n + 1)) with
    | some e => some e
    | none => starTryDown k i n

/-- Lazy star over a class: try consuming zero characters first, then
one more at a time up to the maximal run length. -/
def starTryUp (k : Nat → Option Nat) : Nat → Nat → Option Nat
  | i, 0 => k i
  | i, n + 1 =>
    match k i with
    | some e => some e
    | none => starTryUp k (i + 1) n

/-- The backtracking matcher: first success in engine order. -/
def matchRE : RE → List Char → Nat → (Nat → Option Nat) → Option Nat
  | RE.eps, _, i, k => k i
  | RE.cls p, s, i, k =>
    match s.get? i with
    | some c => if p c then k (i + 1) else none
    | none => none
  | RE.wb, s, i, k => if boundaryAt s i then k i else none
  | RE.cat a b, s, i, k => matchRE a s i (fun j => matchRE b s j k)
  | RE.alt a b, s, i, k =>
    match matchRE a s i k with
    | some e => some e
    | none => matchRE b s i k
  | RE.starCls p lazy_, s, i, k =>
    if lazy_ then starTryUp k i (runLen p (s.drop i))
    else starTryDown k i (runLen p (s.drop i))

/-- The match attempt anchored at position `i`, returning the end of the
first match found. -/
def matchAtPos (re : RE) (s : List Char) (i : Nat) : Option Nat :=
  matchRE re s i some

/-- The scan of `finditer`: non-overlapping matches, leftmost first,
resuming after each match. -/
def finditer_go (re : RE) (s : List Char) : Nat → Nat → List (Nat × Nat)
  | 0, _ => []
  | fuel + 1, i =>
    if i < s.length then
      match matchAtPos re s i with
      | some e => (i, e) :: finditer_go re s fuel (if i < e then e else i + 1)
      | none => finditer_go re s fuel (i + 1)
    else []

/-- `pattern.finditer(text)` as a span list. -/
def finditer (re : RE) (s : List Char) : List (Nat × Nat) :=
  finditer_go re s (s.length + 1) 0

/-! Pattern construction helpers. -/

/-- A literal character. -/
def reLit (c : Char) : RE := RE.cls (fun x => x = c)

/-- A case-insensitive literal character (IGNORECASE patterns). -/
def reLitCI (c : Char) : RE := RE.cls (fun x => x.toLower = c.toLower)

/-- Concatenation of a list of pattern pieces. -/
def reCats (rs : List RE) : RE := rs.foldr RE.cat RE.eps

/-- A literal string. -/
def reStr (cs : List Char) : RE := reCats (cs.map reLit)

/-- A case-insensitive literal string. -/
def reStrCI (cs : List Char) : RE := reCats (cs.map reLitCI)

/-- Alternation tried left to right. -/
def reAlts : List RE → RE
  | [] => RE.cls (fun _ => false)
  | [r] => r
  | r :: rs => RE.alt r (reAlts rs)

/-- Greedy `?`: try with, then without. -/
def reOpt (r : RE) : RE := RE.alt r RE.eps

/-- `extra` nested greedy optional copies of `r`: the expansion of the
upper part of a counted repetition. -/
def reOptChain (r : RE) : Nat → RE
  | 0 => RE.eps
  | n + 1 => reOpt (RE.cat r (reOptChain r n))

/-- Greedy counted repetition `r{lo, lo+extra}`. -/
def reRepRange (r : RE) (lo extra : Nat) : RE :=
  RE.cat (reCats (List.replicate lo r)) (reOptChain r extra)

/-! The character classes of the pattern table. -/

/-- `\d` (ASCII). -/
def isDigitCh (c : Char) : Bool := c.isDigit

/-- `[-.\s]` of the PHONE pattern (`\s` is the same whitespace set as
`str.strip`). -/
def phoneSepCh (c : Char) : Bool := c = '-' || c = '.' || pyIsSpace c

/-- `[^\s/$.?#]` of the URL pattern. -/
def urlHeadCh (c : Char) : Bool :=
  !(pyIsSpace c || c = '/' || c = '$' || c = '.' || c = '?' || c = '#')

/-- `.` without DOTALL: anything except a newline. -/
def anyNoNlCh (c : Char) : Bool := c != '\n'

/-- `[^\s]` of the URL pattern. -/
def notSpaceCh (c : Char) : Bool := !pyIsSpace c

/-- `[ -]` of the CREDIT_CARD pattern. -/
def ccSepCh (c : Char) : Bool := c = ' ' || c = '-'

/-- `[0-9A-Fa-f]` (also `[A-F0-9]` under IGNORECASE). -/
def hexCh (c : Char) : Bool :=
  c.isDigit || ('A' ≤ c && c ≤ 'F') || ('a' ≤ c && c ≤ 'f')

/-- The DATE separator class matching a dash or a slash. -/
def dateSepCh (c : Char) : Bool := c = '-' || c = '/'

/-- `[-\s]` of the DATE_TEXT pattern. -/
def dtSepCh (c : Char) : Bool := c = '-' || pyIsSpace c

/-- `[:-]` of the MAC_ADDRESS pattern. -/
def macSepCh (c : Char) : Bool := c = ':' || c = '-'

/-- `[13]` of the CRYPTO_WALLET pattern. -/
def cryptoHeadCh (c : Char) : Bool := c = '1' || c = '3'

/-- `[a-km-zA-HJ-NP-Z1-9]` of the CRYPTO_WALLET pattern. -/
def cryptoCh (c : Char) : Bool :=
  ('a' ≤ c && c ≤ 'k') || ('m' ≤ c && c ≤ 'z') || ('A' ≤ c && c ≤ 'H') ||
  ('J' ≤ c && c ≤ 'N') || ('P' ≤ c && c ≤ 'Z') || ('1' ≤ c && c ≤ '9')

/-- `[A-Z0-9]` of the IBAN pattern. -/
def upperDigitCh (c : Char) : Bool := c.isUpper || c.isDigit

/-! The fourteen engine-based patterns of `REGEX_PATTERNS`
(src/main.py:60-95), transcribed construct by construct. -/

/-- `\b(?:\+?\d{1,3})?[-.\s]?(?:\(?\d{2,3}\)?[-.\s]?){1,4}\d{2,4}\b` -/
def PHONE_RE : RE :=
  reCats [RE.wb,
    reOpt (RE.cat (reOpt (reLit '+')) (reRepRange (RE.cls isDigitCh) 1 2)),
    reOpt (RE.cls phoneSepCh),
    reRepRange (reCats [reOpt (reLit '('), reRepRange (RE.cls isDigitCh) 2 1,
      reOpt (reLit ')'), reOpt (RE.cls phoneSepCh)]) 1 3,
    reRepRange (RE.cls isDigitCh) 2 2,
    RE.wb]

/-- `\bhttps?://[^\s/$.?#].[^\s]*\b` with IGNORECASE -/
def URL_RE : RE :=
  reCats [RE.wb, reStrCI ['h', 't', 't', 'p'], reOpt (reLitCI 's'),
    reStr [':', '/', '/'], RE.cls urlHeadCh, RE.cls anyNoNlCh,
    RE.starCls notSpaceCh false, RE.wb]

/-- `\b(?:\d[ -]*?){13,16}\b` -/
def CREDIT_CARD_RE : RE :=
  reCats [RE.wb,
    reRepRange (RE.cat (RE.cls isDigitCh) (RE.starCls ccSepCh true)) 13 3, RE.wb]

/-- `\b\d{3}-\d{2}-\d{4}\b` -/
def SSN_RE : RE :=
  reCats [RE.wb, reRepRange (RE.cls isDigitCh) 3 0, reLit '-',
    reRepRange (RE.cls isDigitCh) 2 0, reLit '-',
    reRepRange (RE.cls isDigitCh) 4 0, RE.wb]

/-- `\b[A-Z]{2}[0-9]{2}[A-Z0-9]{11,30}\b` -/
def IBAN_RE : RE :=
  reCats [RE.wb, reRepRange (RE.cls Char.isUpper) 2 0,
    reRepRange (RE.cls isDigitCh) 2 0, reRepRange (RE.cls upperDigitCh) 11 19,
    RE.wb]

/-- `\b[A-Z]{1}[0-9]{6,8}\b` -/
def PASSPORT_RE : RE :=
  reCats [RE.wb, RE.cls Char.isUpper, reRepRange (RE.cls isDigitCh) 6 2, RE.wb]

/-- `\b\d{8,12}\b` -/
def GENERIC_ID_RE : RE :=
  reCats [RE.wb, reRepRange (RE.cls isDigitCh) 8 4, RE.wb]

/-- `\b` then twice (one or two digits then a dash or slash) then two to
four digits then `\b`. -/
def DATE_RE : RE :=
  reCats [RE.wb,
    reRepRange (RE.cat (reRepRange (RE.cls isDigitCh) 1 1) (RE.cls dateSepCh)) 2 0,
    reRepRange (RE.cls isDigitCh) 2 2, RE.wb]

/-- The month alternation of the DATE_TEXT pattern. -/
def MONTH_RE : RE :=
  reAlts [RE.cat (reStrCI ['J', 'a', 'n']) (reOpt (reStrCI ['u', 'a', 'r', 'y'])),
    RE.cat (reStrCI ['F', 'e', 'b']) (reOpt (reStrCI ['r', 'u', 'a', 'r', 'y'])),
    RE.cat (reStrCI ['M', 'a', 'r']) (reOpt (reStrCI ['c', 'h'])),
    RE.cat (reStrCI ['A', 'p', 'r']) (reOpt (reStrCI ['i', 'l'])),
    reStrCI ['M', 'a', 'y'],
    RE.cat (reStrCI ['J', 'u', 'n']) (reOpt (reStrCI ['e'])),
    RE.cat (reStrCI ['J', 'u', 'l']) (reOpt (reStrCI ['y'])),
    RE.cat (reStrCI ['A', 'u', 'g']) (reOpt (reStrCI ['u', 's', 't'])),
    RE.cat (reStrCI ['S', 'e', 'p']) (reOpt (reStrCI ['t', 'e', 'm', 'b', 'e', 'r'])),
    RE.cat (reStrCI ['O', 'c', 't']) (reOpt (reStrCI ['o', 'b', 'e', 'r'])),
    RE.cat (reStrCI ['N', 'o', 'v']) (reOpt (reStrCI ['e', 'm', 'b', 'e', 'r'])),
    RE.cat (reStrCI ['D', 'e', 'c']) (reOpt (reStrCI ['e', 'm', 'b', 'e', 'r']))]

/-- `\b(months)[-\s]?\d{1,2},?\s?\d{2,4}\b` with IGNORECASE -/
def DATE_TEXT_RE : RE :=
  reCats [RE.wb, MONTH_RE, reOpt (RE.cls dtSepCh),
    reRepRange (RE.cls isDigitCh) 1 1, reOpt (reLit ','),
    reOpt (RE.cls pyIsSpace), reRepRange (RE.cls isDigitCh) 2 2, RE.wb]

/-- `\b(?:\d{1,3}\.){3}\d{1,3}\b` -/
def IP_ADDRESS_RE : RE :=
  reCats [RE.wb,
    reRepRange (RE.cat (reRepRange (RE.cls isDigitCh) 1 2) (reLit '.')) 3 0,
    reRepRange (RE.cls isDigitCh) 1 2, RE.wb]

/-- `\b(?:[A-F0-9]{1,4}:){7}[A-F0-9]{1,4}\b` with IGNORECASE -/
def IPV6_RE : RE :=
  reCats [RE.wb,
    reRepRange (RE.cat (reRepRange (RE.cls hexCh) 1 3) (reLit ':')) 7 0,
    reRepRange (RE.cls hexCh) 1 3, RE.wb]

/-- `\b(?:[0-9A-Fa-f]{2}[:-]){5}(?:[0-9A-Fa-f]{2})\b` -/
def MAC_ADDRESS_RE : RE :=
  reCats [RE.wb,
    reRepRange (RE.cat (reRepRange (RE.cls hexCh) 2 0) (RE.cls macSepCh)) 5 0,
    reRepRange (RE.cls hexCh) 2 0, RE.wb]

/-- `\b[13][a-km-zA-HJ-NP-Z1-9]{25,34}\b` -/
def CRYPTO_WALLET_RE : RE :=
  reCats [RE.wb, RE.cls cryptoHeadCh, reRepRange (RE.cls cryptoCh) 25 9, RE.wb]

/-- `\b\d{5}(?:-\d{4})?\b` -/
def ZIP_CODE_RE : RE :=
  reCats [RE.wb, reRepRange (RE.cls isDigitCh) 5 0,
    reOpt (RE.cat (reLit '-') (reRepRange (RE.cls isDigitCh) 4 0)), RE.wb]

/-- `REGEX_PATTERNS` (src/main.py:60-95): the ordered table of labelled
matchers, each entry mapping the label to the span list its compiled
pattern yields on a text. The EMAIL entry uses the specialized matcher
(`emailSpans`) that the idempotence development is built on; it
transcribes the same source regex. -/
def REGEX_PATTERNS : List (List Char × (List Char → List (Nat × Nat))) :=
  [("EMAIL".data, emailSpans),
   ("PHONE".data, finditer PHONE_RE),
   ("URL".data, finditer URL_RE),
   ("CREDIT_CARD".data, finditer CREDIT_CARD_RE),
   ("SSN".data, finditer SSN_RE),
   ("IBAN".data, finditer IBAN_RE),
   ("PASSPORT".data, finditer PASSPORT_RE),
   ("GENERIC_ID".data, finditer GENERIC_ID_RE),
   ("DATE".data, finditer DATE_RE),
   ("DATE_TEXT".data, finditer DATE_TEXT_RE),
   ("IP_ADDRESS".data, finditer IP_ADDRESS_RE),
   ("IPV6".data, finditer IPV6_RE),
   ("MAC_ADDRESS".data, finditer MAC_ADDRESS_RE),
   ("CRYPTO_WALLET".data, finditer CRYPTO_WALLET_RE),
   ("ZIP_CODE".data, finditer ZIP_CODE_RE)]

/-- `regex_fallback` (src/main.py:119-130): for each pattern in table
order, one entity per match with the matched slice as text and score
1.0. -/
def regex_fallback (text : List Char) : List Entity :=
  REGEX_PATTERNS.foldr
    (fun lp acc =>
      ((lp.2 text).map fun sp =>
        Entity.mk sp.1 sp.2 ((text.take sp.2).drop sp.1) lp.1 1) ++ acc)
    []

/-- `drop_overlaps_with_regex` (src/main.py:132-142): collect the spans
of every pattern labelled EMAIL as protected spans, and keep the
entities that intersect none of them. -/
def drop_overlaps_with_regex (text : List Char) (entities : List Entity)
    (regex_patterns : List (List Char × (List Char → List (Nat × Nat)))) : List Entity :=
  let protected_spans :=
    regex_patterns.foldr
      (fun lp acc => if lp.1 = "EMAIL".data then lp.2 text ++ acc else acc) []
  entities.filter fun ent =>
    !(protected_spans.any fun sp =>
      decide (ent.start < sp.2) && decide (sp.1 < ent.end_))

/-- The response of the `/redact` endpoint (src/main.py:205-209). -/
structure RedactResponse where
  original : List Char
  redacted : List Char
  entities : List Entity
deriving DecidableEq, Repr

instance {ε α : Type _} [DecidableEq ε] [DecidableEq α] : DecidableEq (Except ε α) :=
  fun a b =>
    match a, b with
    | Except.ok x, Except.ok y =>
      if h : x = y then isTrue (by rw [h])
      else isFalse (by intro hh; cases hh; exact h rfl)
    | Except.error x, Except.error y =>
      if h : x = y then isTrue (by rw [h])
      else isFalse (by intro hh; cases hh; exact h rfl)
    | Except.ok _, Except.error _ => isFalse (by intro hh; cases hh)
    | Except.error _, Except.ok _ => isFalse (by intro hh; cases hh)

/-- The `/redact` endpoint (src/main.py:173-209). The external model
call is the `model_result` argument: the entity list the model returned,
or the exception it raised (an uncaught Python exception propagates out
of the handler, so the endpoint result is that error). -/
def redact (zipf : List Char → ℚ) (model_result : Except (List Char) (List Entity))
    (text : List Char) : Except (List Char) RedactResponse :=
  match model_result with
  | Except.error e => Except.error e
  | Except.ok raw_entities =>
    let valid_entities := raw_entities.filter (is_valid_entity zipf)
    let regex_entities := regex_fallback text
    let safe_entities := drop_overlaps_with_regex text valid_entities REGEX_PATTERNS
    let all_entities := merge_entities (safe_entities ++ regex_entities)
    let redacted_text := redact_text text all_entities
    Except.ok ⟨text, enforce_final_email_redaction redacted_text, all_entities⟩

theorem merge_sweep_subset {acc rest : List Entity} {x : Entity}
    (hx : x ∈ merge_sweep acc rest) : x ∈ acc ∨ x ∈ rest := by
  induction rest generalizing acc with
  | nil =>
    simp only [merge_sweep] at hx
    exact Or.inl (List.mem_reverse.mp hx)
  | cons e rest ih =>
    match acc with
    | [] =>
      simp only [merge_sweep] at hx
      rcases ih hx with h | h
      · simp only [List.mem_singleton] at h
        exact Or.inr (by simp [h])
      · exact Or.inr (by simp [h])
    | m :: ms =>
      simp only [merge_sweep] at hx
      split at hx
      · split at hx
        · rcases ih hx with h | h
          · rcases List.mem_cons.mp h with h | h
            · exact Or.inr (by simp [h])
            · exact Or.inl (List.mem_cons_of_mem _ h)
          · exact Or.inr (List.mem_cons_of_mem _ h)
        · rcases ih hx with h | h
          · exact Or.inl h
          · exact Or.inr (List.mem_cons_of_mem _ h)
      · rcases ih hx with h | h
        · rcases List.mem_cons.mp h with h | h
          · exact Or.inr (by simp [h])
          · exact Or.inl h
        · exact Or.inr (List.mem_cons_of_mem _ h)

theorem merge_sweep_nonoverlap (rest : List Entity) :
    ∀ acc : List Entity,
    List.Pairwise entLe rest →
    List.Pairwise (fun a b => b.end_ ≤ a.start) acc →
    (∀ m, acc.head? = some m → ∀ e ∈ rest, m.start ≤ e.start) →
    (∀ e ∈ acc, e.start < e.end_) →
    (∀ e ∈ rest, e.start < e.end_) →
    List.Pairwise (fun a b => a.end_ ≤ b.start) (merge_sweep acc rest) := by
  induction rest with
  | nil =>
    intro acc _ hacc _ _ _
    simp only [merge_sweep]
    exact List.pairwise_reverse.mpr hacc
  | cons e rest ih =>
    intro acc hsorted hacc hlink hse hre
    have hsorted' := (List.pairwise_cons.mp hsorted).2
    have hre' : ∀ e' ∈ rest, e'.start < e'.end_ :=
      fun e' he' => hre e' (List.mem_cons_of_mem _ he')
    have hestart : ∀ e' ∈ rest, e.start ≤ e'.start := by
      intro e' he'
      have := (List.pairwise_cons.mp hsorted).1 e' he'
      unfold entLe at this
      omega
    match acc with
    | [] =>
      simp only [merge_sweep]
      apply ih [e] hsorted' (by simp)
      · intro m hm e' he'
        simp only [List.head?_cons, Option.some.injEq] at hm
        subst hm
        exact hestart e' he'
      · intro x hx
        simp only [List.mem_singleton] at hx
        subst hx
        exact hre x (by simp)
      · exact hre'
    | m :: ms =>
      simp only [merge_sweep]
      have hmstart : m.start ≤ e.start := hlink m rfl e (by simp)
      have hmsrest : ∀ b ∈ ms, b.end_ ≤ m.start :=
        fun b hb => (List.pairwise_cons.mp hacc).1 b hb
      split
      · split
        · -- overlap and extends: replace head by e
          apply ih (e :: ms) hsorted'
          · exact List.pairwise_cons.mpr
              ⟨fun b hb => le_trans (hmsrest b hb) hmstart,
               (List.pairwise_cons.mp hacc).2⟩
          · intro m' hm' e' he'
            simp only [List.head?_cons, Option.some.injEq] at hm'
            subst hm'
            exact hestart e' he'
          · intro x hx
            rcases List.mem_cons.mp hx with h | h
            · subst h; exact hre x (by simp)
            · exact hse x (List.mem_cons_of_mem _ h)
          · exact hre'
        · -- overlap, does not extend: discard e
          apply ih (m :: ms) hsorted' hacc
          · intro m' hm' e' he'
            simp only [List.head?_cons, Option.some.injEq] at hm'
            subst hm'
            exact le_trans hmstart (hestart e' he')
          · exact hse
          · exact hre'
      · -- no overlap: append e
        rename_i hnov
        push_neg at hnov
        apply ih (e :: m :: ms) hsorted'
        · refine List.pairwise_cons.mpr ⟨?_, hacc⟩
          intro b hb
          rcases List.mem_cons.mp hb with h | h
          · subst h; exact hnov
          · have h1 := hmsrest b h
            have h2 := hse m (by simp)
            omega
        · intro m' hm' e' he'
          simp only [List.head?_cons, Option.some.injEq] at hm'
          subst hm'
          exact hestart e' he'
        · intro x hx
          rcases List.mem_cons.mp hx with h | h
          · subst h; exact hre x (by simp)
          · exact hse x h
        · exact hre'

/-- C1: for every input list of entities (each with `start < end`), the
list returned by `merge_entities` is sorted by ascending start and
contains no two overlapping entities: for all `i < j` in output order,
`entities[i].end <= entities[j].start`. -/
theorem merge_entities_sorted_nonoverlapping (l : List Entity)
    (h : ∀ e ∈ l, e.start < e.end_) :
    List.Pairwise (fun a b => a.start ≤ b.start) (merge_entities l) ∧
    List.Pairwise (fun a b => a.end_ ≤ b.start) (merge_entities l) := by
  have hsorted : List.Pairwise entLe (l.insertionSort entLe) :=
    List.sorted_insertionSort entLe l
  have hperm := List.perm_insertionSort entLe l
  have hmem : ∀ e ∈ l.insertionSort entLe, e.start < e.end_ :=
    fun e he => h e (hperm.mem_iff.mp he)
  have hnov := merge_sweep_nonoverlap (l.insertionSort entLe) [] hsorted
    (by simp) (by intro m hm; simp at hm) (by simp) hmem
  have hmem2 : ∀ x ∈ merge_entities l, x.start < x.end_ := by
    intro x hx
    rcases merge_sweep_subset hx with hc | hc
    · exact absurd hc (List.not_mem_nil x)
    · exact hmem x hc
  refine ⟨?_, hnov⟩
  refine List.Pairwise.imp_of_mem ?_ hnov
  intro a b ha hb hab
  have := hmem2 a ha
  omega

/-- Witness for C1 at a concrete input. -/
theorem merge_entities_sorted_nonoverlapping_witness :
    (∀ e ∈ [Entity.mk 2 9 ['b'] ['B'] 1, Entity.mk 0 5 ['a'] ['A'] 1,
            Entity.mk 6 8 ['c'] ['C'] 1], e.start < e.end_) ∧
    (List.Pairwise (fun a b => a.start ≤ b.start)
      (merge_entities [Entity.mk 2 9 ['b'] ['B'] 1, Entity.mk 0 5 ['a'] ['A'] 1,
                       Entity.mk 6 8 ['c'] ['C'] 1]) ∧
     List.Pairwise (fun a b => a.end_ ≤ b.start)
      (merge_entities [Entity.mk 2 9 ['b'] ['B'] 1, Entity.mk 0 5 ['a'] ['A'] 1,
                       Entity.mk 6 8 ['c'] ['C'] 1])) :=
  ⟨by decide,
   merge_entities_sorted_nonoverlapping
     [Entity.mk 2 9 ['b'] ['B'] 1, Entity.mk 0 5 ['a'] ['A'] 1,
      Entity.mk 6 8 ['c'] ['C'] 1] (by decide)⟩

/-! C2: order (in)dependence of the merger. -/

/-- The sweep only inspects and keeps spans, so it commutes with the span
projection. -/
theorem merge_sweep_map_span (rest : List Entity) :
    ∀ acc : List Entity,
    (merge_sweep acc rest).map span = merge_sweepS (acc.map span) (rest.map span) := by
  induction rest with
  | nil =>
    intro acc
    simp [merge_sweep, merge_sweepS]
  | cons e rest ih =>
    intro acc
    match acc with
    | [] =>
      simp only [merge_sweep, merge_sweepS, List.map_cons, List.map_nil]
      exact ih [e]
    | m :: ms =>
      simp only [merge_sweep, merge_sweepS, List.map_cons]
      by_cases h1 : e.start < m.end_
      · by_cases h2 : m.end_ < e.end_
        · simp only [h1, if_true, h2, span]
          exact ih (e :: ms)
        · simp only [h1, if_true, h2, if_false, span]
          exact ih (m :: ms)
      · simp only [h1, if_false, span]
        exact ih (e :: m :: ms)

/-- C2 counterexample: `merge_entities` is not order-independent on the
full entities. Two entities with the same span but different labels:
whichever comes first in the input survives the merge. -/
theorem merge_entities_not_order_independent :
    ¬ ∀ (l l' : List Entity), l.Perm l' →
        (merge_entities l).Perm (merge_entities l') := by
  intro h
  have h2 := h [Entity.mk 0 3 ['a'] ['X'] 1, Entity.mk 0 3 ['a'] ['Y'] 1]
               [Entity.mk 0 3 ['a'] ['Y'] 1, Entity.mk 0 3 ['a'] ['X'] 1]
               (List.Perm.swap _ _ _)
  have e1 : merge_entities [Entity.mk 0 3 ['a'] ['X'] 1, Entity.mk 0 3 ['a'] ['Y'] 1]
      = [Entity.mk 0 3 ['a'] ['X'] 1] := by decide
  have e2 : merge_entities [Entity.mk 0 3 ['a'] ['Y'] 1, Entity.mk 0 3 ['a'] ['X'] 1]
      = [Entity.mk 0 3 ['a'] ['Y'] 1] := by decide
  rw [e1, e2] at h2
  have h3 : Entity.mk 0 3 ['a'] ['X'] 1 = Entity.mk 0 3 ['a'] ['Y'] 1 :=
    List.singleton_injective (List.Perm.singleton_eq h2.symm).symm
  simp at h3

/-- C2 (amended): `merge_entities` is order-independent up to spans: for
every permutation of the input list, the merged output carries the same
list of `(start, end)` spans (the labels and scores attached can differ
when two input entities share an identical span). -/
theorem merge_entities_spans_order_invariant (l l' : List Entity)
    (h : l.Perm l') :
    (merge_entities l).map span = (merge_entities l').map span := by
  have key : ∀ m : List Entity,
      (merge_entities m).map span
        = merge_sweepS [] ((m.insertionSort entLe).map span) := by
    intro m
    simpa using merge_sweep_map_span (m.insertionSort entLe) []
  rw [key l, key l']
  have hsorted : ∀ m : List Entity,
      List.Sorted spanLe ((m.insertionSort entLe).map span) := by
    intro m
    refine List.pairwise_map.mpr ?_
    refine (List.sorted_insertionSort entLe m).imp ?_
    intro a b hab
    exact hab
  have hperm : ((l.insertionSort entLe).map span).Perm
      ((l'.insertionSort entLe).map span) :=
    ((List.perm_insertionSort entLe l).map span).trans
      ((h.map span).trans ((List.perm_insertionSort entLe l').map span).symm)
  rw [List.eq_of_perm_of_sorted hperm (hsorted l) (hsorted l')]

/-- Witness for the amended C2 at a concrete input. -/
theorem merge_entities_spans_order_invariant_witness :
    ([Entity.mk 0 3 ['a'] ['X'] 1, Entity.mk 0 3 ['a'] ['Y'] 1].Perm
       [Entity.mk 0 3 ['a'] ['Y'] 1, Entity.mk 0 3 ['a'] ['X'] 1]) ∧
    (merge_entities [Entity.mk 0 3 ['a'] ['X'] 1, Entity.mk 0 3 ['a'] ['Y'] 1]).map span
      = (merge_entities [Entity.mk 0 3 ['a'] ['Y'] 1, Entity.mk 0 3 ['a'] ['X'] 1]).map span :=
  ⟨List.Perm.swap _ _ _,
   merge_entities_spans_order_invariant _ _ (List.Perm.swap _ _ _)⟩

/-! C8: the entity validator. -/

/-- C8 counterexample: the rejection conditions are evaluated on the
whitespace-stripped matched text (`text = ent["text"].strip()` at
src/main.py:101), not on the raw matched text. The entity with text
" ab " (length 4) is rejected by the code, but none of the claimed
conditions holds for the raw text. -/
theorem is_valid_entity_raw_text_iff_false :
    ¬ ∀ (zipf : List Char → ℚ) (ent : Entity),
        is_valid_entity zipf ent = false ↔
          (ent.score < CONFIDENCE_THRESHOLD ∨
           pyLower ent.text = pyLower ent.label ∨
           pyLower ent.text ∈ DO_NOT_REDACT ∨
           ent.text.length ≤ 2 ∨
           (pyIsDigit ent.text = true ∧ ent.text.length < 6) ∨
           ZIPF_THRESHOLD ≤ zipf ent.text) := by
  intro h
  have h2 := (h (fun _ => 0) (Entity.mk 0 4 [' ', 'a', 'b', ' '] ['x'] 1)).mp
    (by decide)
  rcases h2 with h2 | h2 | h2 | h2 | h2 | h2 <;> revert h2 <;> decide

/-- C8 (amended): the validator rejects exactly the specified cases, with
every textual condition evaluated on the whitespace-stripped matched text
(and the whitespace-stripped label). -/
theorem is_valid_entity_iff (zipf : List Char → ℚ) (ent : Entity) :
    is_valid_entity zipf ent = false ↔
      (ent.score < CONFIDENCE_THRESHOLD ∨
       pyLower (pyStrip ent.text) = pyLower (pyStrip ent.label) ∨
       pyLower (pyStrip ent.text) ∈ DO_NOT_REDACT ∨
       (pyStrip ent.text).length ≤ 2 ∨
       (pyIsDigit (pyStrip ent.text) = true ∧ (pyStrip ent.text).length < 6) ∨
       ZIPF_THRESHOLD ≤ zipf (pyStrip ent.text)) := by
  simp only [is_valid_entity]
  split_ifs with h1 h2 h3 h4 h5 h6 <;> simp_all

/-! C9: the redactor. -/

/-- Two sorted lists that are permutations of each other and whose order
relation is antisymmetric on their members are equal. -/
theorem sorted_perm_eq {α : Type _} {R : α → α → Prop} :
    ∀ {l₁ l₂ : List α}, l₁.Perm l₂ →
    List.Pairwise R l₁ → List.Pairwise R l₂ →
    (∀ a ∈ l₁, ∀ b ∈ l₁, R a b → R b a → a = b) → l₁ = l₂ := by
  intro l₁
  induction l₁ with
  | nil =>
    intro l₂ hperm _ _ _
    exact List.Perm.nil_eq hperm
  | cons a t ih =>
    intro l₂ hperm hs₁ hs₂ hanti
    match l₂ with
    | [] => exact absurd hperm.symm (by simp)
    | b :: t₂ =>
      have hab : a = b := by
        by_contra hne
        have ha2 : a ∈ b :: t₂ := hperm.subset (by simp)
        have hb1 : b ∈ a :: t := hperm.symm.subset (by simp)
        have hRba : R b a := by
          rcases List.mem_cons.mp ha2 with h | h
          · exact absurd h hne
          · exact (List.pairwise_cons.mp hs₂).1 a h
        have hRab : R a b := by
          rcases List.mem_cons.mp hb1 with h | h
          · exact absurd h.symm hne
          · exact (List.pairwise_cons.mp hs₁).1 b h
        exact hne (hanti a (by simp) b (hb1) hRab hRba)
      subst hab
      have htperm : t.Perm t₂ := hperm.cons_inv
      have := ih htperm (List.pairwise_cons.mp hs₁).2 (List.pairwise_cons.mp hs₂).2
        (fun x hx y hy => hanti x (List.mem_cons_of_mem _ hx) y (List.mem_cons_of_mem _ hy))
      rw [this]

/-- `spliceSpec` leaves the prefix of the text before every entity
untouched. -/
theorem spliceSpec_take (text : List Char) :
    ∀ (es : List Entity) (j : Nat),
    (∀ e ∈ es, j ≤ e.start ∧ e.start ≤ text.length) →
    (spliceSpec text 0 es).take j = text.take j := by
  intro es
  induction es with
  | nil =>
    intro j _
    simp [spliceSpec]
  | cons e es _
  =>
    intro j hb
    have h1 : j ≤ e.start := (hb e (by simp)).1
    have h2 : e.start ≤ text.length := (hb e (by simp)).2
    simp only [spliceSpec, List.drop_zero, List.append_assoc]
    rw [List.take_append_of_le_length, List.take_take]
    · congr 1
      omega
    · rw [List.length_take]
      omega

/-- Dropping up to a bound below every entity start advances the base
index of `spliceSpec`. -/
theorem spliceSpec_drop (text : List Char) :
    ∀ (es : List Entity) (i j : Nat), i ≤ j →
    (∀ e ∈ es, j ≤ e.start ∧ e.start ≤ text.length) →
    (spliceSpec text i es).drop (j - i) = spliceSpec text j es := by
  intro es
  induction es with
  | nil =>
    intro i j hij _
    simp only [spliceSpec, List.drop_drop]
    congr 1
    omega
  | cons e es _
  =>
    intro i j hij hb
    have h1 : j ≤ e.start := (hb e (by simp)).1
    have h2 : e.start ≤ text.length := (hb e (by simp)).2
    simp only [spliceSpec, List.append_assoc]
    rw [List.drop_append_of_le_length, List.drop_drop]
    · have hij2 : i + (j - i) = j := by omega
      rw [hij2]
    · rw [List.length_drop, List.length_take]
      omega

/-- Folding the replacement step over an ascending, non-overlapping,
in-range entity list produces exactly the spec-side splice. -/
theorem foldr_redact_splice (text : List Char) :
    ∀ es : List Entity,
    List.Pairwise (fun a b => a.end_ ≤ b.start) es →
    (∀ e ∈ es, e.start < e.end_ ∧ e.end_ ≤ text.length) →
    es.foldr (fun e red => redactStep red e) text = spliceSpec text 0 es := by
  intro es
  induction es with
  | nil =>
    intro _ _
    simp [spliceSpec]
  | cons e es ih =>
    intro hnv hr
    have hr' : ∀ e' ∈ es, e'.start < e'.end_ ∧ e'.end_ ≤ text.length :=
      fun e' he' => hr e' (List.mem_cons_of_mem _ he')
    have hbound : ∀ e' ∈ es, e.end_ ≤ e'.start ∧ e'.start ≤ text.length := by
      intro e' he'
      refine ⟨(List.pairwise_cons.mp hnv).1 e' he', ?_⟩
      have := hr' e' he'
      omega
    have hbound2 : ∀ e' ∈ es, e.start ≤ e'.start ∧ e'.start ≤ text.length := by
      intro e' he'
      have h1 := hbound e' he'
      have h2 := hr e (by simp)
      omega
    simp only [List.foldr_cons]
    rw [ih (List.pairwise_cons.mp hnv).2 hr']
    show (spliceSpec text 0 es).take e.start ++ tagOf e.label ++
        (spliceSpec text 0 es).drop e.end_ = _
    have hd : (spliceSpec text 0 es).drop e.end_ = spliceSpec text e.end_ es := by
      have := spliceSpec_drop text es 0 e.end_ (by omega) hbound
      simpa using this
    rw [spliceSpec_take text es e.start hbound2, hd]
    simp [spliceSpec]

/-- C9: for every text and every list of pairwise non-overlapping
entities with `0 <= start < end <= length text`, `redact_text` returns
the string obtained from the text by replacing each span `[start, end)`
by `"[" ++ uppercase label ++ "]"`, processing spans right to left so no
replacement shifts the offsets of the others; characters outside every
span appear unchanged and in order. -/
theorem redact_text_correct (text : List Char) (ents : List Entity)
    (hnv : List.Pairwise (fun a b => a.end_ ≤ b.start ∨ b.end_ ≤ a.start) ents)
    (hr : ∀ e ∈ ents, e.start < e.end_ ∧ e.end_ ≤ text.length) :
    redact_text text ents = spliceSpec text 0 (ents.insertionSort ascStart) := by
  have hpermA := List.perm_insertionSort ascStart ents
  have hpermD := List.perm_insertionSort descStart ents
  have hrA : ∀ e ∈ ents.insertionSort ascStart, e.start < e.end_ ∧ e.end_ ≤ text.length :=
    fun e he => hr e (hpermA.mem_iff.mp he)
  have hsymm : ∀ {x y : Entity},
      (x.end_ ≤ y.start ∨ y.end_ ≤ x.start) → (y.end_ ≤ x.start ∨ x.end_ ≤ y.start) :=
    fun h => h.symm
  have hnvA : List.Pairwise (fun a b => a.end_ ≤ b.start ∨ b.end_ ≤ a.start)
      (ents.insertionSort ascStart) :=
    (List.Perm.pairwise_iff hsymm hpermA.symm).mp hnv
  have hascA : List.Pairwise ascStart (ents.insertionSort ascStart) :=
    List.sorted_insertionSort ascStart ents
  have hkey : List.Pairwise (fun a b => a.end_ ≤ b.start) (ents.insertionSort ascStart) := by
    refine List.Pairwise.imp_of_mem ?_ (hascA.and hnvA)
    intro a b _ hb hab
    rcases hab.2 with h | h
    · exact h
    · have h1 := hrA b hb
      have h2 := hab.1
      unfold ascStart at h2
      omega
  have hdesc : ents.insertionSort descStart = (ents.insertionSort ascStart).reverse := by
    apply sorted_perm_eq (R := descStart)
    · exact hpermD.trans (hpermA.symm.trans (List.reverse_perm _).symm)
    · exact List.sorted_insertionSort descStart ents
    · exact List.pairwise_reverse.mpr (by
        refine hascA.imp ?_
        intro a b h
        exact h)
    · intro a ha b hb h1 h2
      have haM : a ∈ ents := hpermD.subset ha
      have hbM : b ∈ ents := hpermD.subset hb
      by_contra hne
      have hnov := hnv.forall (fun x y h => h.symm) haM hbM hne
      have hae := hr a haM
      have hbe := hr b hbM
      unfold descStart at h1 h2
      rcases hnov with h | h <;> omega
  unfold redact_text
  rw [hdesc, List.foldl_reverse]
  exact foldr_redact_splice text (ents.insertionSort ascStart) hkey hrA

/-- Witness for C9 at a concrete input. -/
theorem redact_text_correct_witness :
    (List.Pairwise (fun a b => a.end_ ≤ b.start ∨ b.end_ ≤ a.start)
       [Entity.mk 5 8 ['5','5','5'] ['p','h'] 1, Entity.mk 0 4 ['c','a','l','l'] ['w'] 1]) ∧
    (∀ e ∈ [Entity.mk 5 8 ['5','5','5'] ['p','h'] 1, Entity.mk 0 4 ['c','a','l','l'] ['w'] 1],
       e.start < e.end_ ∧ e.end_ ≤ (['c','a','l','l',' ','5','5','5',' ','x'] : List Char).length) ∧
    redact_text ['c','a','l','l',' ','5','5','5',' ','x']
        [Entity.mk 5 8 ['5','5','5'] ['p','h'] 1, Entity.mk 0 4 ['c','a','l','l'] ['w'] 1]
      = spliceSpec ['c','a','l','l',' ','5','5','5',' ','x'] 0
          ([Entity.mk 5 8 ['5','5','5'] ['p','h'] 1,
            Entity.mk 0 4 ['c','a','l','l'] ['w'] 1].insertionSort ascStart) :=
  ⟨by decide, by decide,
   redact_text_correct ['c','a','l','l',' ','5','5','5',' ','x']
     [Entity.mk 5 8 ['5','5','5'] ['p','h'] 1, Entity.mk 0 4 ['c','a','l','l'] ['w'] 1]
     (by decide) (by decide)⟩

/-! The EMAIL pattern (src/main.py:62-64):
`\b[A-Za-z0-9._%+-]+@[A-Za-z0-9.-]+\.[A-Za-z]{2,}(?:\.[A-Za-z]{2,})?\b`.

The Python `re` backtracking search for this one pattern is transcribed
into a direct functional matcher. The matcher works on a suffix of the
subject plus the wordness of the character just before the suffix, so
that every read it performs is forward. The local part is greedy and
only its maximal run can be followed by the mandatory `@` (any shorter
run is followed by another local character), so its backtracking
collapses to the maximal run; the first domain run and both TLD runs
backtrack from their maximal length downwards exactly as the engine
does, and the optional second-TLD group is tried before it is skipped. -/

theorem isTld_word {c : Char} (h : isTldCh c = true) : isWordCh c = true := by
  simp only [isTldCh] at h
  simp [isWordCh, Char.isAlphanum, h]

theorem isTld_local {c : Char} (h : isTldCh c = true) : isLocalCh c = true := by
  simp only [isTldCh] at h
  simp [isLocalCh, Char.isAlphanum, h]

theorem isDomain_local {c : Char} (h : isDomainCh c = true) : isLocalCh c = true := by
  simp only [isDomainCh] at h
  rcases Bool.or_eq_true_iff.mp h with h | h
  · rcases Bool.or_eq_true_iff.mp h with h | h <;> simp [isLocalCh, h]
  · simp [isLocalCh, h]

theorem isLocal_email {c : Char} (h : isLocalCh c = true) : isEmailCh c = true := by
  simp [isEmailCh, h]

theorem isTld_email {c : Char} (h : isTldCh c = true) : isEmailCh c = true :=
  isLocal_email (isTld_local h)

theorem isDomain_email {c : Char} (h : isDomainCh c = true) : isEmailCh c = true :=
  isLocal_email (isDomain_local h)

theorem runLen_cons (p : Char → Bool) (c : Char) (l : List Char) :
    runLen p (c :: l) = if p c then runLen p l + 1 else 0 := by
  simp only [runLen, List.takeWhile_cons]
  split <;> simp

theorem runLen_chars (p : Char → Bool) (l : List Char) :
    ∀ k < runLen p l, ∃ c, l.get? k = some c ∧ p c = true := by
  induction l with
  | nil => intro k hk; simp [runLen] at hk
  | cons c l ih =>
    intro k hk
    rw [runLen_cons] at hk
    by_cases hc : p c
    · simp only [hc, if_true] at hk
      match k with
      | 0 => exact ⟨c, rfl, hc⟩
      | k + 1 => exact ih k (by omega)
    · simp [hc] at hk

theorem le_runLen (p : Char → Bool) (l : List Char) :
    ∀ n, (∀ k < n, ∃ c, l.get? k = some c ∧ p c = true) → n ≤ runLen p l := by
  induction l with
  | nil =>
    intro n h
    match n with
    | 0 => omega
    | n + 1 =>
      obtain ⟨c, hc, _⟩ := h 0 (by omega)
      simp at hc
  | cons c l ih =>
    intro n h
    match n with
    | 0 => omega
    | n + 1 =>
      obtain ⟨c₀, hc₀, hp₀⟩ := h 0 (by omega)
      simp only [List.get?] at hc₀
      cases hc₀
      rw [runLen_cons]
      simp only [hp₀, if_true]
      have := ih n (fun k hk => h (k + 1) (by omega))
      omega

theorem runLen_le_of_not (p : Char → Bool) (l : List Char) {j : Nat} {c : Char}
    (hj : l.get? j = some c) (hc : p c = false) : runLen p l ≤ j := by
  by_contra hlt
  obtain ⟨c', hc', hp'⟩ := runLen_chars p l j (by omega)
  rw [hj] at hc'
  cases hc'
  rw [hp'] at hc
  cases hc

theorem runLen_le_length (p : Char → Bool) (l : List Char) :
    runLen p l ≤ l.length := by
  induction l with
  | nil => simp [runLen]
  | cons c l ih =>
    rw [runLen_cons]
    split <;> simp <;> omega

theorem wordAt_drop (l : List Char) (a k : Nat) :
    wordAt (l.drop a) k = wordAt l (a + k) := by
  simp [wordAt, List.get?_drop]

theorem headWord_drop (l : List Char) (a : Nat) :
    headWord (l.drop a) = wordAt l a := by
  simp [headWord, wordAt_drop]

theorem headWord_cons (c : Char) (l : List Char) :
    headWord (c :: l) = isWordCh c := rfl

/-! Equation lemmas for the scan. -/

theorem emailSub_go_nil (fuel : Nat) (prev : Bool) :
    emailSub_go fuel prev [] = [] := by
  cases fuel <;> rfl

theorem emailSub_go_zero (prev : Bool) (l : List Char) :
    emailSub_go 0 prev l = l := by
  cases l <;> rfl


/-! Soundness and completeness of the backtracking searches with respect
to the declarative acceptance predicates. -/

theorem searchTld2_sound (l4 : List Char) :
    ∀ t0, t0 ≤ runLen isTldCh l4 → ∀ t2, searchTld2 l4 t0 = some t2 → AcceptTld2 l4 t2 := by
  intro t0
  induction t0 using Nat.strong_induction_on with
  | _ t0 ih =>
    match t0 with
    | 0 => intro _ t2 h; simp [searchTld2] at h
    | 1 => intro _ t2 h; simp [searchTld2] at h
    | t + 2 =>
      intro hle t2 h
      simp only [searchTld2] at h
      split at h
      · rename_i hb
        cases h
        exact ⟨by omega, fun k hk => runLen_chars _ _ k (by omega), by
          have h12 : t + 2 - 1 = t + 1 := by omega
          rw [h12]; exact hb⟩
      · exact ih (t + 1) (by omega) (by omega) t2 h

theorem searchTld2_complete (l4 : List Char) {t2 : Nat} (hA : AcceptTld2 l4 t2) :
    ∀ t0, t2 ≤ t0 → searchTld2 l4 t0 ≠ none := by
  intro t0
  induction t0 using Nat.strong_induction_on with
  | _ t0 ih =>
    match t0 with
    | 0 => intro h; exact absurd hA.1 (by omega)
    | 1 => intro h; exact absurd hA.1 (by omega)
    | t + 2 =>
      intro hle
      simp only [searchTld2]
      split
      · simp
      · rename_i hb
        have hne : t2 ≠ t + 2 := by
          intro he
          have hb2 := hA.2.2
          rw [he] at hb2
          have h12 : t + 2 - 1 = t + 1 := by omega
          rw [h12] at hb2
          rw [hb2] at hb
          simp at hb
        exact ih (t + 1) (by omega) (by omega)

theorem tryTldSuffix_sound (l3 : List Char) (t : Nat) (ht : 2 ≤ t)
    (hrun : t ≤ runLen isTldCh l3) :
    ∀ r, tryTldSuffix l3 t = some r → AcceptTld l3 r := by
  intro r h
  have hchars : ∀ k < t, ∃ c, l3.get? k = some c ∧ isTldCh c = true :=
    fun k hk => runLen_chars _ _ k (by omega)
  simp only [tryTldSuffix] at h
  by_cases hdot : l3.get? t = some '.'
  · rw [if_pos hdot] at h
    cases hs2 : searchTld2 (l3.drop (t + 1)) (runLen isTldCh (l3.drop (t + 1))) with
    | some t2 =>
      rw [hs2] at h
      simp only [Option.some.injEq] at h
      subst h
      exact ⟨t, ht, hchars, Or.inr ⟨hdot, t2,
        searchTld2_sound _ _ (le_refl _) t2 hs2, rfl⟩⟩
    | none =>
      rw [hs2] at h
      by_cases hb : (wordAt l3 (t - 1) != wordAt l3 t) = true
      · rw [if_pos hb] at h
        simp only [Option.some.injEq] at h
        subst h
        exact ⟨t, ht, hchars, Or.inl ⟨rfl, hb⟩⟩
      · rw [if_neg hb] at h
        cases h
  · rw [if_neg hdot] at h
    by_cases hb : (wordAt l3 (t - 1) != wordAt l3 t) = true
    · rw [if_pos hb] at h
      simp only [Option.some.injEq] at h
      subst h
      exact ⟨t, ht, hchars, Or.inl ⟨rfl, hb⟩⟩
    · rw [if_neg hb] at h
      cases h

theorem tryTldSuffix_complete_plain (l3 : List Char) (t : Nat)
    (hb : (wordAt l3 (t - 1) != wordAt l3 t) = true) :
    tryTldSuffix l3 t ≠ none := by
  simp only [tryTldSuffix]
  by_cases hdot : l3.get? t = some '.'
  · rw [if_pos hdot]
    cases hs2 : searchTld2 (l3.drop (t + 1)) (runLen isTldCh (l3.drop (t + 1))) with
    | some t2 => simp
    | none => rw [if_pos hb]; simp
  · rw [if_neg hdot, if_pos hb]
    simp

theorem tryTldSuffix_complete_group (l3 : List Char) (t : Nat) {t2 : Nat}
    (hdot : l3.get? t = some '.') (hA : AcceptTld2 (l3.drop (t + 1)) t2) :
    tryTldSuffix l3 t ≠ none := by
  simp only [tryTldSuffix]
  rw [if_pos hdot]
  have ht2run : t2 ≤ runLen isTldCh (l3.drop (t + 1)) :=
    le_runLen _ _ t2 hA.2.1
  have hne := searchTld2_complete (l3.drop (t + 1)) hA
    (runLen isTldCh (l3.drop (t + 1))) ht2run
  cases hs2 : searchTld2 (l3.drop (t + 1)) (runLen isTldCh (l3.drop (t + 1))) with
  | some t2a => simp
  | none => exact absurd hs2 hne

theorem searchTld1_sound (l3 : List Char) :
    ∀ t0, t0 ≤ runLen isTldCh l3 → ∀ r, searchTld1 l3 t0 = some r → AcceptTld l3 r := by
  intro t0
  induction t0 using Nat.strong_induction_on with
  | _ t0 ih =>
    match t0 with
    | 0 => intro _ r h; simp [searchTld1] at h
    | 1 => intro _ r h; simp [searchTld1] at h
    | t + 2 =>
      intro hle r h
      simp only [searchTld1] at h
      cases htr : tryTldSuffix l3 (t + 2) with
      | some ra =>
        rw [htr] at h
        simp only [Option.some.injEq] at h
        subst h
        exact tryTldSuffix_sound l3 (t + 2) (by omega) hle _ htr
      | none =>
        rw [htr] at h
        exact ih (t + 1) (by omega) (by omega) r h

theorem searchTld1_complete (l3 : List Char) {t r : Nat}
    (ht2 : 2 ≤ t)
    (hchars : ∀ k < t, ∃ c, l3.get? k = some c ∧ isTldCh c = true)
    (hdisj : (r = t ∧ (wordAt l3 (t - 1) != wordAt l3 t) = true) ∨
      (l3.get? t = some '.' ∧ ∃ t2, AcceptTld2 (l3.drop (t + 1)) t2 ∧ r = t + 1 + t2)) :
    ∀ t0, t ≤ t0 → searchTld1 l3 t0 ≠ none := by
  intro t0
  induction t0 using Nat.strong_induction_on with
  | _ t0 ih =>
    match t0 with
    | 0 => intro h; exact absurd ht2 (by omega)
    | 1 => intro h; exact absurd ht2 (by omega)
    | t' + 2 =>
      intro hle
      simp only [searchTld1]
      cases htr : tryTldSuffix l3 (t' + 2) with
      | some ra => simp
      | none =>
        have hne : t ≠ t' + 2 := by
          intro he
          rw [← he] at htr
          rcases hdisj with ⟨_, hb⟩ | ⟨hdot, t2, hA2, _⟩
          · exact absurd htr (tryTldSuffix_complete_plain l3 t hb)
          · exact absurd htr (tryTldSuffix_complete_group l3 t hdot hA2)
        exact ih (t' + 1) (by omega) (by omega)

theorem searchDom_sound (l2 : List Char) :
    ∀ m0, m0 ≤ runLen isDomainCh l2 → ∀ r, searchDom l2 m0 = some r → AcceptDom l2 r := by
  intro m0
  induction m0 using Nat.strong_induction_on with
  | _ m0 ih =>
    match m0 with
    | 0 => intro _ r h; simp [searchDom] at h
    | m + 1 =>
      intro hle r h
      simp only [searchDom] at h
      by_cases hdot : l2.get? (m + 1) = some '.'
      · rw [if_pos hdot] at h
        cases hst : searchTld1 (l2.drop (m + 2)) (runLen isTldCh (l2.drop (m + 2))) with
        | some t =>
          rw [hst] at h
          simp only [Option.some.injEq] at h
          subst h
          refine ⟨m + 1, by omega, fun k hk => runLen_chars _ _ k (by omega), hdot,
            t, ?_, by omega⟩
          have harr : m + 1 + 1 = m + 2 := by omega
          rw [harr]
          exact searchTld1_sound _ _ (le_refl _) _ hst
        | none =>
          rw [hst] at h
          exact ih m (by omega) (by omega) r h
      · rw [if_neg hdot] at h
        exact ih m (by omega) (by omega) r h

theorem searchDom_complete (l2 : List Char) {m rt : Nat}
    (hm : 1 ≤ m)
    (hchars : ∀ k < m, ∃ c, l2.get? k = some c ∧ isDomainCh c = true)
    (hdot : l2.get? m = some '.')
    (hT : AcceptTld (l2.drop (m + 1)) rt) :
    ∀ m0, m ≤ m0 → searchDom l2 m0 ≠ none := by
  intro m0
  induction m0 using Nat.strong_induction_on with
  | _ m0 ih =>
    match m0 with
    | 0 => intro h; exact absurd hm (by omega)
    | m' + 1 =>
      intro hle
      simp only [searchDom]
      by_cases hdot' : l2.get? (m' + 1) = some '.'
      · rw [if_pos hdot']
        cases hst : searchTld1 (l2.drop (m' + 2)) (runLen isTldCh (l2.drop (m' + 2))) with
        | some t => simp
        | none =>
          have hne : m ≠ m' + 1 := by
            intro he
            have harr : m + 1 = m' + 2 := by omega
            rw [harr] at hT
            obtain ⟨t, ht2, htchars, htdisj⟩ := hT
            exact absurd hst
              (searchTld1_complete (l2.drop (m' + 2)) ht2 htchars htdisj
                (runLen isTldCh (l2.drop (m' + 2))) (le_runLen _ _ t htchars))
          exact ih m' (by omega) (by omega)
      · rw [if_neg hdot']
        have hne : m ≠ m' + 1 := by
          intro he
          rw [he] at hdot
          exact hdot' hdot
        exact ih m' (by omega) (by omega)

theorem emailMatch_sound (prev : Bool) (l : List Char) :
    ∀ len, emailMatch prev l = some len → Accept prev l len := by
  intro len h
  simp only [emailMatch] at h
  split at h
  · rename_i hbd
    by_cases hn0 : runLen isLocalCh l = 0
    · rw [if_pos hn0] at h; cases h
    · rw [if_neg hn0] at h
      by_cases hat : l.get? (runLen isLocalCh l) = some '@'
      · rw [if_pos hat] at h
        cases hsd : searchDom (l.drop (runLen isLocalCh l + 1))
            (runLen isDomainCh (l.drop (runLen isLocalCh l + 1))) with
        | some d =>
          rw [hsd] at h
          simp only [Option.some.injEq] at h
          subst h
          exact ⟨runLen isLocalCh l, by omega, hbd,
            fun k hk => runLen_chars _ _ k hk, hat,
            d, searchDom_sound _ _ (le_refl _) d hsd, rfl⟩
        | none => rw [hsd] at h; cases h
      · rw [if_neg hat] at h; cases h
  · cases h

theorem emailMatch_complete (prev : Bool) (l : List Char) {len : Nat}
    (hA : Accept prev l len) : emailMatch prev l ≠ none := by
  obtain ⟨n, hn1, hbd, hchars, hat, r, hD, hlen⟩ := hA
  have hrun : n = runLen isLocalCh l := by
    have h1 : n ≤ runLen isLocalCh l := le_runLen _ _ n hchars
    have h2 : runLen isLocalCh l ≤ n := runLen_le_of_not _ _ hat (by decide)
    omega
  simp only [emailMatch]
  rw [if_pos hbd, if_neg (by omega : ¬ runLen isLocalCh l = 0), if_pos (hrun ▸ hat)]
  obtain ⟨m, hm1, hmchars, hmdot, rt, hT, hrteq⟩ := hD
  have hmrun : m ≤ runLen isDomainCh (l.drop (n + 1)) := le_runLen _ _ m hmchars
  have hne := searchDom_complete (l.drop (n + 1)) hm1 hmchars hmdot hT
    (runLen isDomainCh (l.drop (n + 1))) hmrun
  rw [← hrun]
  cases hsd : searchDom (l.drop (n + 1)) (runLen isDomainCh (l.drop (n + 1))) with
  | some d => simp
  | none => exact absurd hsd hne

/-! Extraction lemmas for accepted matches. -/

theorem get?_some_lt {l : List Char} {j : Nat} {c : Char}
    (h : l.get? j = some c) : j < l.length := by
  by_contra hh
  rw [List.get?_eq_none.mpr (by omega)] at h
  cases h

theorem AcceptTld_pos {l3 : List Char} {r : Nat} (h : AcceptTld l3 r) : 2 ≤ r := by
  obtain ⟨t, ht2, _, hdisj⟩ := h
  rcases hdisj with ⟨rfl, _⟩ | ⟨_, t2, h2, rfl⟩
  · omega
  · have := h2.1
    omega

theorem AcceptDom_pos {l2 : List Char} {r : Nat} (h : AcceptDom l2 r) : 4 ≤ r := by
  obtain ⟨m, hm, _, _, rt, hT, rfl⟩ := h
  have := AcceptTld_pos hT
  omega

theorem Accept_pos {prev : Bool} {l : List Char} {len : Nat}
    (h : Accept prev l len) : 6 ≤ len := by
  obtain ⟨n, hn, _, _, _, r, hD, rfl⟩ := h
  have := AcceptDom_pos hD
  omega

theorem AcceptTld2_last {l4 : List Char} {t2 : Nat} (h : AcceptTld2 l4 t2) :
    ∃ c, l4.get? (t2 - 1) = some c ∧ isTldCh c = true :=
  h.2.1 (t2 - 1) (by have := h.1; omega)

theorem AcceptTld_last {l3 : List Char} {r : Nat} (h : AcceptTld l3 r) :
    ∃ c, l3.get? (r - 1) = some c ∧ isTldCh c = true := by
  obtain ⟨t, ht2, hchars, hdisj⟩ := h
  rcases hdisj with ⟨rfl, _⟩ | ⟨hdot, t2, h2, rfl⟩
  · exact hchars (r - 1) (by omega)
  · obtain ⟨c, hc, htld⟩ := AcceptTld2_last h2
    refine ⟨c, ?_, htld⟩
    rw [List.get?_drop] at hc
    have harr : t + 1 + t2 - 1 = t + 1 + (t2 - 1) := by have := h2.1; omega
    rw [harr]
    exact hc

theorem AcceptDom_last {l2 : List Char} {r : Nat} (h : AcceptDom l2 r) :
    ∃ c, l2.get? (r - 1) = some c ∧ isTldCh c = true := by
  obtain ⟨m, hm, _, _, rt, hT, rfl⟩ := h
  have hrt := AcceptTld_pos hT
  obtain ⟨c, hc, htld⟩ := AcceptTld_last hT
  rw [List.get?_drop] at hc
  refine ⟨c, ?_, htld⟩
  have harr : m + 1 + rt - 1 = m + 1 + (rt - 1) := by omega
  rw [harr]
  exact hc

theorem Accept_last {prev : Bool} {l : List Char} {len : Nat} (h : Accept prev l len) :
    ∃ c, l.get? (len - 1) = some c ∧ isTldCh c = true := by
  obtain ⟨n, hn, _, _, _, r, hD, rfl⟩ := h
  have hr := AcceptDom_pos hD
  obtain ⟨c, hc, htld⟩ := AcceptDom_last hD
  rw [List.get?_drop] at hc
  refine ⟨c, ?_, htld⟩
  have harr : n + 1 + r - 1 = n + 1 + (r - 1) := by omega
  rw [harr]
  exact hc

theorem Accept_le_length {prev : Bool} {l : List Char} {len : Nat}
    (h : Accept prev l len) : len ≤ l.length := by
  obtain ⟨c, hc, _⟩ := Accept_last h
  have := get?_some_lt hc
  have := Accept_pos h
  omega

theorem AcceptTld_endB {l3 : List Char} {r : Nat} (h : AcceptTld l3 r) :
    (wordAt l3 (r - 1) != wordAt l3 r) = true := by
  obtain ⟨t, ht2, hchars, hdisj⟩ := h
  rcases hdisj with ⟨rfl, hb⟩ | ⟨hdot, t2, h2, rfl⟩
  · exact hb
  · have hb := h2.2.2
    rw [wordAt_drop, wordAt_drop] at hb
    have e1 : t + 1 + t2 - 1 = t + 1 + (t2 - 1) := by have := h2.1; omega
    rw [e1]
    exact hb

theorem AcceptDom_endB {l2 : List Char} {r : Nat} (h : AcceptDom l2 r) :
    (wordAt l2 (r - 1) != wordAt l2 r) = true := by
  obtain ⟨m, hm, _, _, rt, hT, rfl⟩ := h
  have hrt := AcceptTld_pos hT
  have hb := AcceptTld_endB hT
  rw [wordAt_drop, wordAt_drop] at hb
  have e1 : m + 1 + rt - 1 = m + 1 + (rt - 1) := by omega
  rw [e1]
  exact hb

theorem Accept_endB {prev : Bool} {l : List Char} {len : Nat} (h : Accept prev l len) :
    (wordAt l (len - 1) != wordAt l len) = true := by
  obtain ⟨n, hn, _, _, _, r, hD, rfl⟩ := h
  have hr := AcceptDom_pos hD
  have hb := AcceptDom_endB hD
  rw [wordAt_drop, wordAt_drop] at hb
  have e1 : n + 1 + r - 1 = n + 1 + (r - 1) := by omega
  rw [e1]
  exact hb

theorem AcceptTld2_chars {l4 : List Char} {t2 : Nat} (h : AcceptTld2 l4 t2) :
    ∀ k < t2, ∃ c, l4.get? k = some c ∧ isEmailCh c = true :=
  fun k hk => (h.2.1 k hk).imp (fun _ hc => ⟨hc.1, isTld_email hc.2⟩)

theorem AcceptTld_chars {l3 : List Char} {r : Nat} (h : AcceptTld l3 r) :
    ∀ k < r, ∃ c, l3.get? k = some c ∧ isEmailCh c = true := by
  obtain ⟨t, ht2, hchars, hdisj⟩ := h
  rcases hdisj with ⟨rfl, _⟩ | ⟨hdot, t2, h2, rfl⟩
  · exact fun k hk => (hchars k hk).imp (fun _ hc => ⟨hc.1, isTld_email hc.2⟩)
  · intro k hk
    rcases Nat.lt_trichotomy k t with hlt | heq | hgt
    · exact (hchars k hlt).imp (fun _ hc => ⟨hc.1, isTld_email hc.2⟩)
    · subst heq
      exact ⟨'.', hdot, by decide⟩
    · obtain ⟨c, hc, he⟩ := AcceptTld2_chars h2 (k - (t + 1)) (by omega)
      rw [List.get?_drop] at hc
      have e1 : t + 1 + (k - (t + 1)) = k := by omega
      rw [e1] at hc
      exact ⟨c, hc, he⟩

theorem AcceptDom_chars {l2 : List Char} {r : Nat} (h : AcceptDom l2 r) :
    ∀ k < r, ∃ c, l2.get? k = some c ∧ isEmailCh c = true := by
  obtain ⟨m, hm, hchars, hdot, rt, hT, rfl⟩ := h
  intro k hk
  rcases Nat.lt_trichotomy k m with hlt | heq | hgt
  · exact (hchars k hlt).imp (fun _ hc => ⟨hc.1, isDomain_email hc.2⟩)
  · subst heq
    exact ⟨'.', hdot, by decide⟩
  · obtain ⟨c, hc, he⟩ := AcceptTld_chars hT (k - (m + 1)) (by omega)
    rw [List.get?_drop] at hc
    have e1 : m + 1 + (k - (m + 1)) = k := by omega
    rw [e1] at hc
    exact ⟨c, hc, he⟩

theorem Accept_chars {prev : Bool} {l : List Char} {len : Nat} (h : Accept prev l len) :
    ∀ k < len, ∃ c, l.get? k = some c ∧ isEmailCh c = true := by
  obtain ⟨n, hn, hbd, hchars, hat, r, hD, rfl⟩ := h
  intro k hk
  rcases Nat.lt_trichotomy k n with hlt | heq | hgt
  · exact (hchars k hlt).imp (fun _ hc => ⟨hc.1, isLocal_email hc.2⟩)
  · subst heq
    exact ⟨'@', hat, by decide⟩
  · obtain ⟨c, hc, he⟩ := AcceptDom_chars hD (k - (n + 1)) (by omega)
    rw [List.get?_drop] at hc
    have e1 : n + 1 + (k - (n + 1)) = k := by omega
    rw [e1] at hc
    exact ⟨c, hc, he⟩

theorem Accept_startB {prev : Bool} {l : List Char} {len : Nat} (h : Accept prev l len) :
    (prev != headWord l) = true := by
  obtain ⟨n, hn, hbd, _, _, _, _, _⟩ := h
  exact hbd

/-! Congruence: acceptance only reads the characters strictly inside the
match and the wordness at its end position. -/

theorem wordAt_congr {L La : List Char} {b : Nat}
    (hg : ∀ k < b, L.get? k = La.get? k) {j : Nat} (hj : j < b) :
    wordAt L j = wordAt La j := by
  unfold wordAt
  rw [hg j hj]

theorem AcceptTld2_congr {L4 La4 : List Char} {t2 : Nat}
    (hg : ∀ k < t2, L4.get? k = La4.get? k)
    (hw : wordAt L4 t2 = wordAt La4 t2)
    (h : AcceptTld2 L4 t2) : AcceptTld2 La4 t2 := by
  obtain ⟨h1, h2, h3⟩ := h
  refine ⟨h1, ?_, ?_⟩
  · intro k hk
    rw [← hg k hk]
    exact h2 k hk
  · rw [← wordAt_congr hg (show t2 - 1 < t2 by omega), ← hw]
    exact h3

theorem AcceptTld_congr {L3 La3 : List Char} {r : Nat}
    (hg : ∀ k < r, L3.get? k = La3.get? k)
    (hw : wordAt L3 r = wordAt La3 r)
    (h : AcceptTld L3 r) : AcceptTld La3 r := by
  obtain ⟨t, ht2, hchars, hdisj⟩ := h
  rcases hdisj with ⟨rfl, hb⟩ | ⟨hdot, t2, h2, rfl⟩
  · refine ⟨r, ht2, ?_, Or.inl ⟨rfl, ?_⟩⟩
    · intro k hk
      rw [← hg k hk]
      exact hchars k hk
    · rw [← wordAt_congr hg (show r - 1 < r by omega), ← hw]
      exact hb
  · have ht2p := h2.1
    refine ⟨t, ht2, ?_, Or.inr ⟨?_, t2, ?_, rfl⟩⟩
    · intro k hk
      rw [← hg k (by omega)]
      exact hchars k hk
    · rw [← hg t (by omega)]
      exact hdot
    · refine AcceptTld2_congr ?_ ?_ h2
      · intro k hk
        rw [List.get?_drop, List.get?_drop]
        exact hg (t + 1 + k) (by omega)
      · rw [wordAt_drop, wordAt_drop]
        exact hw

theorem AcceptDom_congr {L2 La2 : List Char} {r : Nat}
    (hg : ∀ k < r, L2.get? k = La2.get? k)
    (hw : wordAt L2 r = wordAt La2 r)
    (h : AcceptDom L2 r) : AcceptDom La2 r := by
  obtain ⟨m, hm, hchars, hdot, rt, hT, rfl⟩ := h
  have hrt := AcceptTld_pos hT
  refine ⟨m, hm, ?_, ?_, rt, ?_, rfl⟩
  · intro k hk
    rw [← hg k (by omega)]
    exact hchars k hk
  · rw [← hg m (by omega)]
    exact hdot
  · refine AcceptTld_congr ?_ ?_ hT
    · intro k hk
      rw [List.get?_drop, List.get?_drop]
      exact hg (m + 1 + k) (by omega)
    · rw [wordAt_drop, wordAt_drop]
      exact hw

theorem Accept_congr {L La : List Char} {prev : Bool} {len : Nat}
    (hg : ∀ k < len, L.get? k = La.get? k)
    (hw : wordAt L len = wordAt La len)
    (h : Accept prev L len) : Accept prev La len := by
  obtain ⟨n, hn, hbd, hchars, hat, r, hD, rfl⟩ := h
  have hr := AcceptDom_pos hD
  refine ⟨n, hn, ?_, ?_, ?_, r, ?_, rfl⟩
  · unfold headWord at hbd ⊢
    rw [← wordAt_congr hg (show (0:Nat) < n + 1 + r by omega)]
    exact hbd
  · intro k hk
    rw [← hg k (by omega)]
    exact hchars k hk
  · rw [← hg n (by omega)]
    exact hat
  · refine AcceptDom_congr ?_ ?_ hD
    · intro k hk
      rw [List.get?_drop, List.get?_drop]
      exact hg (n + 1 + k) (by omega)
    · rw [wordAt_drop, wordAt_drop]
      exact hw

/-! The transfer argument: if no match is accepted anywhere on the
original suffix (with a fixed already-emitted prefix in front), then no
match is accepted on the rewritten suffix either. A candidate match in
the rewritten text cannot enter a `[EMAIL]` replacement block, because
`[` is not a character any match can consume; a candidate ending flush
against a block transfers because the original match starting there
began with a non-word character. -/

theorem wordAt_some {l : List Char} {k : Nat} {ch : Char} (h : l.get? k = some ch) :
    wordAt l k = isWordCh ch := by
  unfold wordAt
  rw [h]

theorem emailSub_transfer : ∀ fuel : Nat, ∀ l pre : List Char, ∀ prev ctx : Bool,
    joinOk ctx pre prev →
    (∀ len, ¬ Accept ctx (pre ++ l) len) →
    ∀ len, ¬ Accept ctx (pre ++ emailSub_go fuel prev l) len := by
  intro fuel
  induction fuel with
  | zero =>
    intro l pre prev ctx _ hnm len
    rw [emailSub_go_zero]
    exact hnm len
  | succ fuel ih =>
    intro l pre prev ctx hjoin hnm len
    cases l with
    | nil =>
      rw [emailSub_go_nil]
      exact hnm len
    | cons c rest =>
      cases hm : emailMatch prev (c :: rest) with
      | none =>
        have heq : emailSub_go (fuel + 1) prev (c :: rest)
            = c :: emailSub_go fuel (isWordCh c) rest := by
          simp [emailSub_go, hm]
        rw [heq, List.append_cons]
        refine ih rest (pre ++ [c]) (isWordCh c) ctx ?_ ?_ len
        · unfold joinOk
          rw [List.getLast?_concat]
        · intro len2 h2
          rw [← List.append_cons] at h2
          exact hnm len2 h2
      | some n =>
        have heq : emailSub_go (fuel + 1) prev (c :: rest)
            = emailTag ++ emailSub_go fuel (wordAt (c :: rest) (n - 1)) ((c :: rest).drop n) := by
          simp [emailSub_go, hm]
        rw [heq]
        intro hA
        have hlb : (pre ++ (emailTag ++ emailSub_go fuel (wordAt (c :: rest) (n - 1))
            ((c :: rest).drop n))).get? pre.length = some '[' := by
          rw [List.get?_append_right (le_refl _)]
          simp [emailTag]
        have hpos := Accept_pos hA
        have hlen_le : len ≤ pre.length := by
          by_contra hgt
          obtain ⟨ch, hch, hemail⟩ := Accept_chars hA pre.length (by omega)
          rw [hlb] at hch
          simp only [Option.some.injEq] at hch
          subst hch
          exact absurd hemail (by decide)
        have hg : ∀ k < len,
            (pre ++ (emailTag ++ emailSub_go fuel (wordAt (c :: rest) (n - 1))
              ((c :: rest).drop n))).get? k = (pre ++ (c :: rest)).get? k := by
          intro k hk
          rw [List.get?_append (by omega), List.get?_append (by omega)]
        have hw : wordAt (pre ++ (emailTag ++ emailSub_go fuel (wordAt (c :: rest) (n - 1))
            ((c :: rest).drop n))) len = wordAt (pre ++ (c :: rest)) len := by
          rcases Nat.lt_or_ge len pre.length with hlt | hge
          · unfold wordAt
            rw [List.get?_append hlt, List.get?_append hlt]
          · have hlenq : len = pre.length := by omega
            have h1 : wordAt (pre ++ (emailTag ++ emailSub_go fuel (wordAt (c :: rest) (n - 1))
                ((c :: rest).drop n))) len = false := by
              rw [hlenq, wordAt_some hlb]
              decide
            have hAcc_in := emailMatch_sound prev (c :: rest) n hm
            have hprev : prev = true := by
              obtain ⟨ch, hch, htld⟩ := Accept_last hA
              have hch2 : pre.get? (len - 1) = some ch := by
                rw [List.get?_append (by omega)] at hch
                exact hch
              have hlast : pre.getLast? = some ch := by
                rw [List.getLast?_eq_getElem?, ← List.get?_eq_getElem?, ← hlenq]
                exact hch2
              unfold joinOk at hjoin
              rw [hlast] at hjoin
              rw [hjoin]
              exact isTld_word htld
            have hcword : isWordCh c = false := by
              have hsb := Accept_startB hAcc_in
              rw [hprev, headWord_cons] at hsb
              cases hc2 : isWordCh c
              · rfl
              · rw [hc2] at hsb
                simp at hsb
            have hrg : (pre ++ (c :: rest)).get? pre.length = some c := by
              rw [List.get?_append_right (le_refl _)]
              simp
            have h2 : wordAt (pre ++ (c :: rest)) len = false := by
              rw [hlenq, wordAt_some hrg]
              exact hcword
            rw [h1, h2]
        exact hnm len (Accept_congr hg hw hA)

/-! No position inside an emitted `[EMAIL]` block can start a match. -/

theorem emailMatch_lbrack (ctx : Bool) (l : List Char) :
    emailMatch ctx ('[' :: l) = none := by
  cases ctx <;> rfl

theorem emailMatch_rbrack (l : List Char) :
    emailMatch true (']' :: l) = none := rfl

theorem emailMatch_tagE (rest : List Char) :
    emailMatch false ('E' :: 'M' :: 'A' :: 'I' :: 'L' :: ']' :: rest) = none := rfl

theorem emailMatch_tagM (rest : List Char) :
    emailMatch true ('M' :: 'A' :: 'I' :: 'L' :: ']' :: rest) = none := rfl

theorem emailMatch_tagA (rest : List Char) :
    emailMatch true ('A' :: 'I' :: 'L' :: ']' :: rest) = none := rfl

theorem emailMatch_tagI (rest : List Char) :
    emailMatch true ('I' :: 'L' :: ']' :: rest) = none := rfl

theorem emailMatch_tagL (rest : List Char) :
    emailMatch true ('L' :: ']' :: rest) = none := rfl

theorem isWordCh_lbrack : isWordCh '[' = false := rfl

theorem isWordCh_rbrack : isWordCh ']' = false := rfl

theorem isWordCh_E : isWordCh 'E' = true := rfl

theorem isWordCh_M : isWordCh 'M' = true := rfl

theorem isWordCh_A : isWordCh 'A' = true := rfl

theorem isWordCh_I : isWordCh 'I' = true := rfl

theorem isWordCh_L : isWordCh 'L' = true := rfl

theorem noMatchAll_tag (ctx : Bool) (rest : List Char)
    (h : noMatchAll false rest = true) :
    noMatchAll ctx (emailTag ++ rest) = true := by
  show noMatchAll ctx ('[' :: 'E' :: 'M' :: 'A' :: 'I' :: 'L' :: ']' :: rest) = true
  simp only [noMatchAll, isWordCh_lbrack, isWordCh_rbrack, isWordCh_E, isWordCh_M,
    isWordCh_A, isWordCh_I, isWordCh_L, emailMatch_lbrack, emailMatch_tagE,
    emailMatch_tagM, emailMatch_tagA, emailMatch_tagI, emailMatch_tagL,
    emailMatch_rbrack, Option.isNone_none, Bool.true_and]
  exact h

theorem emailMatch_no_boundary {prev : Bool} {l : List Char}
    (h : prev = headWord l) : emailMatch prev l = none := by
  simp [emailMatch, h]

/-! The rewritten text is clean: no position of the output of the scan
matches the EMAIL pattern. -/

theorem scan_clean : ∀ fuel : Nat, ∀ l : List Char, ∀ prev ctx : Bool,
    l.length ≤ fuel →
    (ctx = prev ∨ (headWord l = false ∧ ctx = false ∧ prev = true)) →
    noMatchAll ctx (emailSub_go fuel prev l) = true := by
  intro fuel
  induction fuel with
  | zero =>
    intro l prev ctx hlen _
    have hnil : l = [] := by
      cases l with
      | nil => rfl
      | cons a b => simp at hlen
    subst hnil
    rw [emailSub_go_nil]
    rfl
  | succ fuel ih =>
    intro l prev ctx hlen hctx
    cases l with
    | nil =>
      rw [emailSub_go_nil]
      rfl
    | cons c rest =>
      simp only [List.length_cons] at hlen
      cases hm : emailMatch prev (c :: rest) with
      | some n =>
        have heq : emailSub_go (fuel + 1) prev (c :: rest)
            = emailTag ++ emailSub_go fuel (wordAt (c :: rest) (n - 1)) ((c :: rest).drop n) := by
          simp [emailSub_go, hm]
        rw [heq]
        have hAcc := emailMatch_sound prev (c :: rest) n hm
        have hpos := Accept_pos hAcc
        have hle := Accept_le_length hAcc
        simp only [List.length_cons] at hle
        apply noMatchAll_tag
        apply ih
        · rw [List.length_drop]
          simp only [List.length_cons]
          omega
        · right
          obtain ⟨ch, hch, htld⟩ := Accept_last hAcc
          refine ⟨?_, rfl, ?_⟩
          · rw [headWord_drop]
            have hB := Accept_endB hAcc
            rw [wordAt_some hch, isTld_word htld] at hB
            cases hW : wordAt (c :: rest) n
            · rfl
            · rw [hW] at hB
              simp at hB
          · rw [wordAt_some hch]
            exact isTld_word htld
      | none =>
        have heq : emailSub_go (fuel + 1) prev (c :: rest)
            = c :: emailSub_go fuel (isWordCh c) rest := by
          simp [emailSub_go, hm]
        rw [heq]
        simp only [noMatchAll, Bool.and_eq_true]
        constructor
        · rcases hctx with hctx | ⟨hhw, hctx0, _⟩
          · subst hctx
            have hnone : ∀ len, ¬ Accept ctx (c :: rest) len :=
              fun len hA => (emailMatch_complete ctx (c :: rest) hA) hm
            have htr := emailSub_transfer fuel rest [c] (isWordCh c) ctx
              (by unfold joinOk; rw [List.getLast?_singleton])
              (fun len hA => hnone len hA)
            cases hm2 : emailMatch ctx (c :: emailSub_go fuel (isWordCh c) rest) with
            | none => rfl
            | some len2 =>
              exact absurd (emailMatch_sound _ _ len2 hm2) (htr len2)
          · subst hctx0
            rw [headWord_cons] at hhw
            rw [emailMatch_no_boundary (by rw [headWord_cons, hhw])]
            rfl
        · exact ih rest (isWordCh c) (isWordCh c) (by omega) (Or.inl rfl)

theorem emailSub_go_of_noMatchAll : ∀ (fuel : Nat) (prev : Bool) (l : List Char),
    noMatchAll prev l = true → emailSub_go fuel prev l = l := by
  intro fuel
  induction fuel with
  | zero =>
    intro prev l _
    exact emailSub_go_zero prev l
  | succ fuel ih =>
    intro prev l h
    cases l with
    | nil => exact emailSub_go_nil _ _
    | cons c rest =>
      simp only [noMatchAll, Bool.and_eq_true, Option.isNone_iff_eq_none] at h
      have heq : emailSub_go (fuel + 1) prev (c :: rest)
          = c :: emailSub_go fuel (isWordCh c) rest := by
        simp [emailSub_go, h.1]
      rw [heq, ih (isWordCh c) rest h.2]

/-- C3: the Final Sweep is idempotent: for every string `x`,
`enforce_final_email_redaction (enforce_final_email_redaction x)` equals
`enforce_final_email_redaction x`; and on any string containing no match
of the EMAIL pattern (at any position) it returns the string
unchanged. -/
theorem enforce_final_email_redaction_idempotent (x : List Char) :
    enforce_final_email_redaction (enforce_final_email_redaction x)
      = enforce_final_email_redaction x ∧
    (noMatchAll false x = true → enforce_final_email_redaction x = x) := by
  constructor
  · have hclean : noMatchAll false (enforce_final_email_redaction x) = true :=
      scan_clean x.length x false false (le_refl _) (Or.inl rfl)
    exact emailSub_go_of_noMatchAll _ false _ hclean
  · intro h
    exact emailSub_go_of_noMatchAll _ false _ h

/-- Witness for C3 at a concrete input. -/
theorem enforce_final_email_redaction_idempotent_witness :
    noMatchAll false ['h', 'i'] = true ∧
    (enforce_final_email_redaction (enforce_final_email_redaction ['h', 'i'])
        = enforce_final_email_redaction ['h', 'i'] ∧
      enforce_final_email_redaction ['h', 'i'] = ['h', 'i']) :=
  ⟨by decide, (enforce_final_email_redaction_idempotent ['h', 'i']).1,
    (enforce_final_email_redaction_idempotent ['h', 'i']).2 (by decide)⟩

/-! A small regular-expression engine for the remaining fourteen entries
of `REGEX_PATTERNS` (src/main.py:60-95). The AST covers exactly the
constructs those patterns use: character classes, concatenation,
alternation (tried left to right), the word-boundary assertion, and
unbounded greedy or lazy repetition of a character class. Counted
repetitions `{lo,hi}` and optional parts `?` are expanded at pattern
construction time into concatenations of mandatory copies followed by
nested greedy optionals, which reproduces the engine order (longest
first for greedy, shortest first for lazy). The matcher is written in
continuation-passing style and returns the end position of the first
match in the Python `re` backtracking order. -/

/-- The protected spans computed by the overlap resolver over the full
pattern table are exactly the EMAIL spans. -/
theorem drop_overlaps_protected_spans (text : List Char) :
    (REGEX_PATTERNS.foldr
      (fun lp acc => if lp.1 = "EMAIL".data then lp.2 text ++ acc else acc) [])
      = emailSpans text := by
  show emailSpans text ++ [] = emailSpans text
  exact List.append_nil _

/-- C10: the Overlap Resolver protects only EMAIL spans: an entity is
returned by `drop_overlaps_with_regex` exactly when it is in the input
list and its span intersects no EMAIL match of the text; matches of the
other patterns (PHONE, SSN, ...) impose no constraint. -/
theorem drop_overlaps_with_regex_email_only (text : List Char)
    (entities : List Entity) (e : Entity) :
    e ∈ drop_overlaps_with_regex text entities REGEX_PATTERNS ↔
      e ∈ entities ∧ ∀ sp ∈ emailSpans text, ¬(e.start < sp.2 ∧ sp.1 < e.end_) := by
  simp only [drop_overlaps_with_regex, drop_overlaps_protected_spans]
  rw [List.mem_filter]
  simp only [Bool.not_eq_true', List.any_eq_false, Bool.and_eq_true,
    decide_eq_true_eq, not_and]

/-- C7: there is no handler around the external model call
(src/main.py:185): an error raised by the model propagates out of the
`/redact` endpoint and the whole request fails with that error; no
degraded regex-only result is produced. -/
theorem redact_model_error_propagates (zipf : List Char → ℚ)
    (err text : List Char) :
    redact zipf (Except.error err) text = Except.error err := rfl

/-- C6: evaluation at the failing input: the model entity with
`start = 5 >= end = 2` on the six-character text is not discarded
anywhere: it passes the validator and the overlap resolver, reaches and
survives the merger, and the redactor consumes it (duplicating text,
since its span is inverted). -/
theorem malformed_span_reaches_merger_and_redactor :
    is_valid_entity (fun _ => 0) (Entity.mk 5 2 ['q', 'z', 'x'] ("person".data) 1) = true ∧
    redact (fun _ => 0) (Except.ok [Entity.mk 5 2 ['q', 'z', 'x'] ("person".data) 1])
        ("abcdef".data)
      = Except.ok ⟨"abcdef".data, "abcde[PERSON]cdef".data,
          [Entity.mk 5 2 ['q', 'z', 'x'] ("person".data) 1]⟩ := by
  constructor
  · decide
  · decide

/-- C4: evaluation at the failing input "123-45-6789" with no model
entities: the SSN pattern fully matches the text (its only match is the
whole span), yet the final output entity for that span carries the label
PHONE, because the PHONE pattern matches the same span, precedes SSN in
the pattern table, and the merger keeps the first of two entities with
an identical span; no stage relabels SSN-shaped spans. -/
theorem ssn_shaped_span_not_labeled_ssn :
    finditer SSN_RE ("123-45-6789".data) = [(0, 11)] ∧
    redact (fun _ => 0) (Except.ok []) ("123-45-6789".data)
      = Except.ok ⟨"123-45-6789".data, "[PHONE]".data,
          [Entity.mk 0 11 ("123-45-6789".data) ("PHONE".data) 1]⟩ := by
  constructor
  · decide
  · decide

/-- C5: `regex_fallback` applies no cross-pattern suppression: on
"123-45-6789" it emits the PHONE entity for the full span even though
that same substring is a full match of the SSN pattern (which it also
emits separately). -/
theorem phone_not_suppressed_for_ssn_match :
    Entity.mk 0 11 ("123-45-6789".data) ("PHONE".data) 1
        ∈ regex_fallback ("123-45-6789".data) ∧
    finditer SSN_RE ("123-45-6789".data) = [(0, 11)] := by
  constructor
  · decide
  · decide
